import Mathlib

/-!
# Verification of the Simbody `SystemGlobalSubsystem` event core

This development shallowly embeds the event subsystem implemented in
`SimTKcommon/Simulation/src/SystemGlobalSubsystem.cpp` and proves the
specified properties about it.

Conventions used throughout:

* C++ `double` next-trigger times are modelled by `Time := WithTop ℚ`:
  the code only compares times with `<`, `>` and pushes on exact equality,
  and the specification states that equality of times is exact (bitwise)
  equality of canonicalized non-NaN doubles, so any decidable linear order
  with a top element (`⊤` standing for `dInfinity`) is a faithful model.
* Raw C++ pointers that the registry checks against `nullptr` are modelled
  by `Option`; registry slots (`ClonePtr`/`unique_ptr` cells) likewise.
* SimTK error macros (`SimTK_APIARGCHECK`, `SimTK_INDEXCHECK_ALWAYS`,
  `SimTK_ERRCHK_ALWAYS`) abort the call with an exception; fallible
  operations are therefore embedded in `Except Err`.
-/

/-- Error taxonomy of the SimTK check macros used by the subsystem. -/
inductive Err where
  | invalidArgument   -- SimTK_APIARGCHECK: bad argument (e.g. invalid id, null pointer)
  | invalidIndex      -- SimTK_INDEXCHECK_ALWAYS: index out of range
  | missing           -- SimTK_ERRCHK_ALWAYS: slot empty (no object for this id)
  deriving Repr, DecidableEq

/-! ## Scheduler model (`findNextScheduledEventTimes`, source lines 777-828) -/

/-- Next-trigger times: `⊤` models `dInfinity`; rationals model the
canonicalized non-NaN doubles the integrator hands in. -/
abbrev Time := WithTop ℚ

/-- The kind of an `EventAction`: `Report` (const-state) or `Change`
(may modify state). -/
inductive ActKind where
  | report
  | change
  deriving Repr, DecidableEq

/-- An `Event` as seen by the scheduler: just its list of action kinds. -/
structure SEvent where
  actions : List ActKind
  deriving Repr, DecidableEq

/-- Modelled from the spec: `Event::hasChangeAction()` is not under `src/`;
per the spec an action is classified Report or Change and the query asks
whether the event carries at least one Change action. -/
def SEvent.hasChangeAction (e : SEvent) : Bool :=
  e.actions.any (· = ActKind.change)

/-- The event registry as the scheduler reads it: `m_events`, an array of
owning pointers indexed by `EventId`. -/
abbrev SReg := List (Option SEvent)

/-- Look up an event by id; `none` both for out-of-range ids and for empty
slots (the cases where `System::getEvent` would throw). -/
def SReg.getEv (reg : SReg) (eid : Nat) : Option SEvent :=
  reg.getD eid none

/-- An `EventTimer` as the scheduler sees it: the ordered `EventId` list it
causes, and its `calcTimeOfNextTrigger` as a function of
`timeOfLastTrigger` (the system and state arguments are fixed during one
scheduler call, so they are absorbed into the function). -/
structure MTimer where
  eventIds : List Nat
  calcTimeOfNextTrigger : Time → Time

/-- The classification loop of `findNextScheduledEventTimes`: walk the
timer's caused `EventId`s, fetch each event with the throwing
`system.getEvent(eid)`, and stop with `true` at the first event that has a
Change action. -/
def hasChangeE (reg : SReg) : List Nat → Except Err Bool
  | [] => .ok false
  | eid :: rest =>
    match reg.getEv eid with
    | none => .error .invalidIndex
    | some e => if e.hasChangeAction then .ok true else hasChangeE reg rest

/-- Result quadruple of `findNextScheduledEventTimes`:
`(timeOfNextReport, reportTimers, timeOfNextChange, changeTimers)`. -/
structure SchedResult where
  timeOfNextReport : Time
  reportTimers : List MTimer
  timeOfNextChange : Time
  changeTimers : List MTimer

/-- The main loop of `findNextScheduledEventTimes` over `guts.m_timers`,
with the four accumulators threaded exactly as in the source: classify the
timer, compute its next time against the category's `timeOfLast`, then
skip (`t > best`), restart the list (`t < best`), or append (`t == best`). -/
def schedLoop (reg : SReg) (tLastReport tLastChange : Time) :
    List MTimer → SchedResult → Except Err SchedResult
  | [], acc => .ok acc
  | T :: rest, acc =>
    match hasChangeE reg T.eventIds with
    | .error e => .error e
    | .ok hc =>
    if hc then
      let t := T.calcTimeOfNextTrigger tLastChange
      if t > acc.timeOfNextChange then
        schedLoop reg tLastReport tLastChange rest acc
      else if t < acc.timeOfNextChange then
        schedLoop reg tLastReport tLastChange rest
          { acc with timeOfNextChange := t, changeTimers := [T] }
      else
        schedLoop reg tLastReport tLastChange rest
          { acc with changeTimers := acc.changeTimers ++ [T] }
    else
      let t := T.calcTimeOfNextTrigger tLastReport
      if t > acc.timeOfNextReport then
        schedLoop reg tLastReport tLastChange rest acc
      else if t < acc.timeOfNextReport then
        schedLoop reg tLastReport tLastChange rest
          { acc with timeOfNextReport := t, reportTimers := [T] }
      else
        schedLoop reg tLastReport tLastChange rest
          { acc with reportTimers := acc.reportTimers ++ [T] }

/-- `SystemGlobalSubsystem::findNextScheduledEventTimes`: initialize both
next-times to `dInfinity`, clear both output lists, and run the loop over
the active timers. -/
def findNextScheduledEventTimes (reg : SReg) (timers : List MTimer)
    (tLastReport tLastChange : Time) : Except Err SchedResult :=
  schedLoop reg tLastReport tLastChange timers ⟨⊤, [], ⊤, []⟩

/-- Pure (non-throwing) classification: a timer is a change-timer iff some
event it causes has at least one Change action.  Coincides with the loop
in the source whenever every caused id is registered. -/
def isChangeTimer (reg : SReg) (T : MTimer) : Bool :=
  T.eventIds.any (fun eid => ((reg.getEv eid).map SEvent.hasChangeAction).getD false)

/-- Minimum of a list of times, `⊤` for the empty list. -/
def listMin (l : List Time) : Time := l.foldr min ⊤

/-- The report-timers among a timer list, in order. -/
def repFilter (reg : SReg) (timers : List MTimer) : List MTimer :=
  timers.filter (fun T => !(isChangeTimer reg T))

/-- The change-timers among a timer list, in order. -/
def chgFilter (reg : SReg) (timers : List MTimer) : List MTimer :=
  timers.filter (fun T => isChangeTimer reg T)

/-- Earliest next-trigger time over the report-timers (computed against
`timeOfLastReport`). -/
def bestRep (reg : SReg) (tLR : Time) (timers : List MTimer) : Time :=
  listMin ((repFilter reg timers).map (·.calcTimeOfNextTrigger tLR))

/-- Earliest next-trigger time over the change-timers (computed against
`timeOfLastChange`). -/
def bestChg (reg : SReg) (tLC : Time) (timers : List MTimer) : Time :=
  listMin ((chgFilter reg timers).map (·.calcTimeOfNextTrigger tLC))

lemma hasChangeE_eq_ok (reg : SReg) (l : List Nat)
    (h : ∀ e ∈ l, (reg.getEv e).isSome) :
    hasChangeE reg l =
      .ok (l.any (fun eid =>
        ((reg.getEv eid).map SEvent.hasChangeAction).getD false)) := by
  induction l with
  | nil => rfl
  | cons e rest ih =>
    obtain ⟨ev, hev⟩ := Option.isSome_iff_exists.mp (h e (by simp))
    by_cases hc : ev.hasChangeAction
    · simp [hasChangeE, hev, hc]
    · simp only [hasChangeE, hev, hc, List.any_cons, Option.map_some',
        Option.getD_some, Bool.false_or, if_neg]
      exact ih (fun e' he' => h e' (List.mem_cons_of_mem _ he'))

lemma listMin_cons (x : Time) (l : List Time) :
    listMin (x :: l) = min x (listMin l) := rfl

lemma repFilter_cons_chg {reg : SReg} {T : MTimer} (rest : List MTimer)
    (h : isChangeTimer reg T = true) :
    repFilter reg (T :: rest) = repFilter reg rest := by
  simp [repFilter, List.filter_cons, h]

lemma repFilter_cons_rep {reg : SReg} {T : MTimer} (rest : List MTimer)
    (h : isChangeTimer reg T = false) :
    repFilter reg (T :: rest) = T :: repFilter reg rest := by
  simp [repFilter, List.filter_cons, h]

lemma chgFilter_cons_chg {reg : SReg} {T : MTimer} (rest : List MTimer)
    (h : isChangeTimer reg T = true) :
    chgFilter reg (T :: rest) = T :: chgFilter reg rest := by
  simp [chgFilter, List.filter_cons, h]

lemma chgFilter_cons_rep {reg : SReg} {T : MTimer} (rest : List MTimer)
    (h : isChangeTimer reg T = false) :
    chgFilter reg (T :: rest) = chgFilter reg rest := by
  simp [chgFilter, List.filter_cons, h]

/-- Pure mirror of `schedLoop` for use once every caused event id is known
to be registered (then the `getEvent` calls cannot throw). -/
def schedPure (reg : SReg) (tLastReport tLastChange : Time) :
    List MTimer → SchedResult → SchedResult
  | [], acc => acc
  | T :: rest, acc =>
    if isChangeTimer reg T then
      let t := T.calcTimeOfNextTrigger tLastChange
      if t > acc.timeOfNextChange then
        schedPure reg tLastReport tLastChange rest acc
      else if t < acc.timeOfNextChange then
        schedPure reg tLastReport tLastChange rest
          { acc with timeOfNextChange := t, changeTimers := [T] }
      else
        schedPure reg tLastReport tLastChange rest
          { acc with changeTimers := acc.changeTimers ++ [T] }
    else
      let t := T.calcTimeOfNextTrigger tLastReport
      if t > acc.timeOfNextReport then
        schedPure reg tLastReport tLastChange rest acc
      else if t < acc.timeOfNextReport then
        schedPure reg tLastReport tLastChange rest
          { acc with timeOfNextReport := t, reportTimers := [T] }
      else
        schedPure reg tLastReport tLastChange rest
          { acc with reportTimers := acc.reportTimers ++ [T] }

lemma schedLoop_eq_pure (reg : SReg) (tLR tLC : Time) (timers : List MTimer)
    (hrec : ∀ T ∈ timers, ∀ e ∈ T.eventIds, (reg.getEv e).isSome)
    (acc : SchedResult) :
    schedLoop reg tLR tLC timers acc =
      .ok (schedPure reg tLR tLC timers acc) := by
  induction timers generalizing acc with
  | nil => rfl
  | cons T rest ih =>
    have hT : ∀ e ∈ T.eventIds, (reg.getEv e).isSome :=
      fun e he => hrec T (by simp) e he
    have hrest : ∀ T' ∈ rest, ∀ e ∈ T'.eventIds, (reg.getEv e).isSome :=
      fun T' hT' e he => hrec T' (List.mem_cons_of_mem _ hT') e he
    have hcE : hasChangeE reg T.eventIds = .ok (isChangeTimer reg T) :=
      hasChangeE_eq_ok reg T.eventIds hT
    simp only [schedLoop, schedPure, hcE]
    split_ifs <;> exact ih hrest _

lemma schedPure_tC (reg : SReg) (tLR tLC : Time) (timers : List MTimer)
    (acc : SchedResult) :
    (schedPure reg tLR tLC timers acc).timeOfNextChange
      = min acc.timeOfNextChange (bestChg reg tLC timers) := by
  induction timers generalizing acc with
  | nil =>
    show acc.timeOfNextChange = min acc.timeOfNextChange ⊤
    exact (min_eq_left le_top).symm
  | cons T rest ih =>
    by_cases hcls : isChangeTimer reg T
    · have hbest : bestChg reg tLC (T :: rest)
          = min (T.calcTimeOfNextTrigger tLC) (bestChg reg tLC rest) := by
        simp [bestChg, chgFilter_cons_chg rest hcls, listMin_cons]
      rcases lt_trichotomy (T.calcTimeOfNextTrigger tLC)
        acc.timeOfNextChange with hlt | heq | hgt
      · rw [show schedPure reg tLR tLC (T :: rest) acc
            = schedPure reg tLR tLC rest
                { acc with timeOfNextChange := T.calcTimeOfNextTrigger tLC,
                           changeTimers := [T] } by
          simp only [schedPure]
          rw [if_pos hcls, if_neg (not_lt.mpr (le_of_lt hlt)), if_pos hlt]]
        rw [ih, hbest]
        exact (min_eq_right (le_of_lt
          (lt_of_le_of_lt (min_le_left _ _) hlt))).symm
      · rw [show schedPure reg tLR tLC (T :: rest) acc
            = schedPure reg tLR tLC rest
                { acc with changeTimers := acc.changeTimers ++ [T] } by
          simp only [schedPure]
          rw [if_pos hcls, if_neg (by rw [heq]; exact lt_irrefl _),
            if_neg (by rw [heq]; exact lt_irrefl _)]]
        rw [ih, hbest, heq, ← min_assoc, min_self]
      · rw [show schedPure reg tLR tLC (T :: rest) acc
            = schedPure reg tLR tLC rest acc by
          simp only [schedPure]
          rw [if_pos hcls, if_pos hgt]]
        rw [ih, hbest, ← min_assoc, min_eq_left (le_of_lt hgt)]
    · have hbest : bestChg reg tLC (T :: rest) = bestChg reg tLC rest := by
        simp [bestChg, chgFilter_cons_rep rest (by simpa using hcls)]
      simp only [schedPure, if_neg hcls, hbest]
      split_ifs <;> rw [ih]

lemma schedPure_cL (reg : SReg) (tLR tLC : Time) (timers : List MTimer)
    (acc : SchedResult) :
    (schedPure reg tLR tLC timers acc).changeTimers
      = (if min acc.timeOfNextChange (bestChg reg tLC timers)
            = acc.timeOfNextChange
         then acc.changeTimers else []) ++
        (chgFilter reg timers).filter
          (fun T => T.calcTimeOfNextTrigger tLC
              = min acc.timeOfNextChange (bestChg reg tLC timers)) := by
  induction timers generalizing acc with
  | nil =>
    show acc.changeTimers = (if min acc.timeOfNextChange ⊤
        = acc.timeOfNextChange then acc.changeTimers else []) ++ _
    rw [if_pos (min_eq_left le_top)]
    simp [chgFilter]
  | cons T rest ih =>
    by_cases hcls : isChangeTimer reg T
    · have hbest : bestChg reg tLC (T :: rest)
          = min (T.calcTimeOfNextTrigger tLC) (bestChg reg tLC rest) := by
        simp [bestChg, chgFilter_cons_chg rest hcls, listMin_cons]
      rcases lt_trichotomy (T.calcTimeOfNextTrigger tLC)
        acc.timeOfNextChange with hlt | heq | hgt
      · rw [show schedPure reg tLR tLC (T :: rest) acc
            = schedPure reg tLR tLC rest
                { acc with timeOfNextChange := T.calcTimeOfNextTrigger tLC,
                           changeTimers := [T] } by
          simp only [schedPure]
          rw [if_pos hcls, if_neg (not_lt.mpr (le_of_lt hlt)), if_pos hlt]]
        rw [ih]
        dsimp only
        have hM : min (T.calcTimeOfNextTrigger tLC) (bestChg reg tLC rest)
            < acc.timeOfNextChange :=
          lt_of_le_of_lt (min_le_left _ _) hlt
        rw [hbest, min_eq_right (le_of_lt hM), if_neg (ne_of_lt hM),
          chgFilter_cons_chg rest hcls, List.filter_cons]
        simp only [decide_eq_true_eq]
        by_cases hat : min (T.calcTimeOfNextTrigger tLC)
            (bestChg reg tLC rest) = T.calcTimeOfNextTrigger tLC
        · rw [if_pos hat, if_pos hat.symm]
          simp
        · rw [if_neg hat, if_neg (fun h => hat h.symm)]
      · rw [show schedPure reg tLR tLC (T :: rest) acc
            = schedPure reg tLR tLC rest
                { acc with changeTimers := acc.changeTimers ++ [T] } by
          simp only [schedPure]
          rw [if_pos hcls, if_neg (not_lt.mpr (le_of_eq heq)),
            if_neg (not_lt.mpr (le_of_eq heq.symm))]]
        rw [ih]
        dsimp only
        have hmm : min acc.timeOfNextChange
              (min (T.calcTimeOfNextTrigger tLC) (bestChg reg tLC rest))
            = min acc.timeOfNextChange (bestChg reg tLC rest) := by
          rw [heq, ← min_assoc, min_self]
        rw [hbest, hmm, chgFilter_cons_chg rest hcls, List.filter_cons]
        simp only [decide_eq_true_eq]
        by_cases hkeep : min acc.timeOfNextChange (bestChg reg tLC rest)
            = acc.timeOfNextChange
        · have hin : T.calcTimeOfNextTrigger tLC
              = min acc.timeOfNextChange (bestChg reg tLC rest) := by
            rw [hkeep]
            exact heq
          rw [if_pos hkeep, if_pos hkeep, if_pos hin]
          simp
        · have hout : ¬ (T.calcTimeOfNextTrigger tLC
              = min acc.timeOfNextChange (bestChg reg tLC rest)) := by
            rw [heq]
            exact fun h => hkeep h.symm
          rw [if_neg hkeep, if_neg hkeep, if_neg hout]
      · rw [show schedPure reg tLR tLC (T :: rest) acc
            = schedPure reg tLR tLC rest acc by
          simp only [schedPure]
          rw [if_pos hcls, if_pos hgt]]
        rw [ih]
        have hmm : min acc.timeOfNextChange
              (min (T.calcTimeOfNextTrigger tLC) (bestChg reg tLC rest))
            = min acc.timeOfNextChange (bestChg reg tLC rest) := by
          rw [← min_assoc, min_eq_left (le_of_lt hgt)]
        have hout : ¬ (T.calcTimeOfNextTrigger tLC
            = min acc.timeOfNextChange (bestChg reg tLC rest)) := by
          intro h
          exact absurd (h ▸ min_le_left acc.timeOfNextChange
            (bestChg reg tLC rest)) (not_le.mpr hgt)
        rw [hbest, hmm, chgFilter_cons_chg rest hcls, List.filter_cons]
        simp only [decide_eq_true_eq]
        rw [if_neg hout]
    · have hbest : bestChg reg tLC (T :: rest) = bestChg reg tLC rest := by
        simp [bestChg, chgFilter_cons_rep rest (by simpa using hcls)]
      have hfil : chgFilter reg (T :: rest) = chgFilter reg rest :=
        chgFilter_cons_rep rest (by simpa using hcls)
      rcases lt_trichotomy (T.calcTimeOfNextTrigger tLR)
        acc.timeOfNextReport with hlt | heq | hgt
      · rw [show schedPure reg tLR tLC (T :: rest) acc
            = schedPure reg tLR tLC rest
                { acc with timeOfNextReport := T.calcTimeOfNextTrigger tLR,
                           reportTimers := [T] } by
          simp only [schedPure]
          rw [if_neg hcls, if_neg (not_lt.mpr (le_of_lt hlt)), if_pos hlt]]
        rw [ih, hbest, hfil]
      · rw [show schedPure reg tLR tLC (T :: rest) acc
            = schedPure reg tLR tLC rest
                { acc with reportTimers := acc.reportTimers ++ [T] } by
          simp only [schedPure]
          rw [if_neg hcls, if_neg (not_lt.mpr (le_of_eq heq)),
            if_neg (not_lt.mpr (le_of_eq heq.symm))]]
        rw [ih, hbest, hfil]
      · rw [show schedPure reg tLR tLC (T :: rest) acc
            = schedPure reg tLR tLC rest acc by
          simp only [schedPure]
          rw [if_neg hcls, if_pos hgt]]
        rw [ih, hbest, hfil]

lemma schedPure_tR (reg : SReg) (tLR tLC : Time) (timers : List MTimer)
    (acc : SchedResult) :
    (schedPure reg tLR tLC timers acc).timeOfNextReport
      = min acc.timeOfNextReport (bestRep reg tLR timers) := by
  induction timers generalizing acc with
  | nil =>
    show acc.timeOfNextReport = min acc.timeOfNextReport ⊤
    exact (min_eq_left le_top).symm
  | cons T rest ih =>
    by_cases hcls : isChangeTimer reg T
    · have hbest : bestRep reg tLR (T :: rest) = bestRep reg tLR rest := by
        simp [bestRep, repFilter_cons_chg rest hcls]
      simp only [schedPure, if_pos hcls, hbest]
      split_ifs <;> rw [ih]
    · have hbest : bestRep reg tLR (T :: rest)
          = min (T.calcTimeOfNextTrigger tLR) (bestRep reg tLR rest) := by
        simp [bestRep, repFilter_cons_rep rest (by simpa using hcls),
          listMin_cons]
      rcases lt_trichotomy (T.calcTimeOfNextTrigger tLR)
        acc.timeOfNextReport with hlt | heq | hgt
      · rw [show schedPure reg tLR tLC (T :: rest) acc
            = schedPure reg tLR tLC rest
                { acc with timeOfNextReport := T.calcTimeOfNextTrigger tLR,
                           reportTimers := [T] } by
          simp only [schedPure]
          rw [if_neg hcls, if_neg (not_lt.mpr (le_of_lt hlt)), if_pos hlt]]
        rw [ih, hbest]
        exact (min_eq_right (le_of_lt
          (lt_of_le_of_lt (min_le_left _ _) hlt))).symm
      · rw [show schedPure reg tLR tLC (T :: rest) acc
            = schedPure reg tLR tLC rest
                { acc with reportTimers := acc.reportTimers ++ [T] } by
          simp only [schedPure]
          rw [if_neg hcls, if_neg (not_lt.mpr (le_of_eq heq)),
            if_neg (not_lt.mpr (le_of_eq heq.symm))]]
        rw [ih, hbest, heq, ← min_assoc, min_self]
      · rw [show schedPure reg tLR tLC (T :: rest) acc
            = schedPure reg tLR tLC rest acc by
          simp only [schedPure]
          rw [if_neg hcls, if_pos hgt]]
        rw [ih, hbest, ← min_assoc, min_eq_left (le_of_lt hgt)]

lemma schedPure_rL (reg : SReg) (tLR tLC : Time) (timers : List MTimer)
    (acc : SchedResult) :
    (schedPure reg tLR tLC timers acc).reportTimers
      = (if min acc.timeOfNextReport (bestRep reg tLR timers)
            = acc.timeOfNextReport
         then acc.reportTimers else []) ++
        (repFilter reg timers).filter
          (fun T => T.calcTimeOfNextTrigger tLR
              = min acc.timeOfNextReport (bestRep reg tLR timers)) := by
  induction timers generalizing acc with
  | nil =>
    show acc.reportTimers = (if min acc.timeOfNextReport ⊤
        = acc.timeOfNextReport then acc.reportTimers else []) ++ _
    rw [if_pos (min_eq_left le_top)]
    simp [repFilter]
  | cons T rest ih =>
    by_cases hcls : isChangeTimer reg T
    · have hbest : bestRep reg tLR (T :: rest) = bestRep reg tLR rest := by
        simp [bestRep, repFilter_cons_chg rest hcls]
      have hfil : repFilter reg (T :: rest) = repFilter reg rest :=
        repFilter_cons_chg rest hcls
      rcases lt_trichotomy (T.calcTimeOfNextTrigger tLC)
        acc.timeOfNextChange with hlt | heq | hgt
      · rw [show schedPure reg tLR tLC (T :: rest) acc
            = schedPure reg tLR tLC rest
                { acc with timeOfNextChange := T.calcTimeOfNextTrigger tLC,
                           changeTimers := [T] } by
          simp only [schedPure]
          rw [if_pos hcls, if_neg (not_lt.mpr (le_of_lt hlt)), if_pos hlt]]
        rw [ih, hbest, hfil]
      · rw [show schedPure reg tLR tLC (T :: rest) acc
            = schedPure reg tLR tLC rest
                { acc with changeTimers := acc.changeTimers ++ [T] } by
          simp only [schedPure]
          rw [if_pos hcls, if_neg (not_lt.mpr (le_of_eq heq)),
            if_neg (not_lt.mpr (le_of_eq heq.symm))]]
        rw [ih, hbest, hfil]
      · rw [show schedPure reg tLR tLC (T :: rest) acc
            = schedPure reg tLR tLC rest acc by
          simp only [schedPure]
          rw [if_pos hcls, if_pos hgt]]
        rw [ih, hbest, hfil]
    · have hbest : bestRep reg tLR (T :: rest)
          = min (T.calcTimeOfNextTrigger tLR) (bestRep reg tLR rest) := by
        simp [bestRep, repFilter_cons_rep rest (by simpa using hcls),
          listMin_cons]
      rcases lt_trichotomy (T.calcTimeOfNextTrigger tLR)
        acc.timeOfNextReport with hlt | heq | hgt
      · rw [show schedPure reg tLR tLC (T :: rest) acc
            = schedPure reg tLR tLC rest
                { acc with timeOfNextReport := T.calcTimeOfNextTrigger tLR,
                           reportTimers := [T] } by
          simp only [schedPure]
          rw [if_neg hcls, if_neg (not_lt.mpr (le_of_lt hlt)), if_pos hlt]]
        rw [ih]
        dsimp only
        have hM : min (T.calcTimeOfNextTrigger tLR) (bestRep reg tLR rest)
            < acc.timeOfNextReport :=
          lt_of_le_of_lt (min_le_left _ _) hlt
        rw [hbest, min_eq_right (le_of_lt hM), if_neg (ne_of_lt hM),
          repFilter_cons_rep rest (by simpa using hcls), List.filter_cons]
        simp only [decide_eq_true_eq]
        by_cases hat : min (T.calcTimeOfNextTrigger tLR)
            (bestRep reg tLR rest) = T.calcTimeOfNextTrigger tLR
        · rw [if_pos hat, if_pos hat.symm]
          simp
        · rw [if_neg hat, if_neg (fun h => hat h.symm)]
      · rw [show schedPure reg tLR tLC (T :: rest) acc
            = schedPure reg tLR tLC rest
                { acc with reportTimers := acc.reportTimers ++ [T] } by
          simp only [schedPure]
          rw [if_neg hcls, if_neg (not_lt.mpr (le_of_eq heq)),
            if_neg (not_lt.mpr (le_of_eq heq.symm))]]
        rw [ih]
        dsimp only
        have hmm : min acc.timeOfNextReport
              (min (T.calcTimeOfNextTrigger tLR) (bestRep reg tLR rest))
            = min acc.timeOfNextReport (bestRep reg tLR rest) := by
          rw [heq, ← min_assoc, min_self]
        rw [hbest, hmm, repFilter_cons_rep rest (by simpa using hcls),
          List.filter_cons]
        simp only [decide_eq_true_eq]
        by_cases hkeep : min acc.timeOfNextReport (bestRep reg tLR rest)
            = acc.timeOfNextReport
        · have hin : T.calcTimeOfNextTrigger tLR
              = min acc.timeOfNextReport (bestRep reg tLR rest) := by
            rw [hkeep]
            exact heq
          rw [if_pos hkeep, if_pos hkeep, if_pos hin]
          simp
        · have hout : ¬ (T.calcTimeOfNextTrigger tLR
              = min acc.timeOfNextReport (bestRep reg tLR rest)) := by
            rw [heq]
            exact fun h => hkeep h.symm
          rw [if_neg hkeep, if_neg hkeep, if_neg hout]
      · rw [show schedPure reg tLR tLC (T :: rest) acc
            = schedPure reg tLR tLC rest acc by
          simp only [schedPure]
          rw [if_neg hcls, if_pos hgt]]
        rw [ih]
        have hmm : min acc.timeOfNextReport
              (min (T.calcTimeOfNextTrigger tLR) (bestRep reg tLR rest))
            = min acc.timeOfNextReport (bestRep reg tLR rest) := by
          rw [← min_assoc, min_eq_left (le_of_lt hgt)]
        have hout : ¬ (T.calcTimeOfNextTrigger tLR
            = min acc.timeOfNextReport (bestRep reg tLR rest)) := by
          intro h
          exact absurd (h ▸ min_le_left acc.timeOfNextReport
            (bestRep reg tLR rest)) (not_le.mpr hgt)
        rw [hbest, hmm, repFilter_cons_rep rest (by simpa using hcls),
          List.filter_cons]
        simp only [decide_eq_true_eq]
        rw [if_neg hout]

lemma listMin_le_of_mem {l : List Time} {x : Time} (hx : x ∈ l) :
    listMin l ≤ x := by
  induction l with
  | nil => cases hx
  | cons a rest ih =>
    rcases List.mem_cons.mp hx with rfl | hx'
    · exact min_le_left _ _
    · exact le_trans (min_le_right _ _) (ih hx')

/-- Claim C1: in `findNextScheduledEventTimes`, a timer is a change-timer
iff one of its caused events has a Change action; change-timers are
evaluated against `timeOfLastChange` and report-timers against
`timeOfLastReport`; each returned time is the minimum over its category
and each returned list holds exactly the timers of that category attaining
that minimum (compared with exact equality), in registry order. -/
theorem C1_scheduler_classifies_and_groups_ties (reg : SReg)
    (timers : List MTimer) (tLastReport tLastChange : Time)
    (hrec : ∀ T ∈ timers, ∀ e ∈ T.eventIds, (reg.getEv e).isSome) :
    findNextScheduledEventTimes reg timers tLastReport tLastChange = .ok
      { timeOfNextReport := bestRep reg tLastReport timers
        reportTimers := (repFilter reg timers).filter
          (fun T => T.calcTimeOfNextTrigger tLastReport
              = bestRep reg tLastReport timers)
        timeOfNextChange := bestChg reg tLastChange timers
        changeTimers := (chgFilter reg timers).filter
          (fun T => T.calcTimeOfNextTrigger tLastChange
              = bestChg reg tLastChange timers) } := by
  rw [findNextScheduledEventTimes,
    schedLoop_eq_pure reg tLastReport tLastChange timers hrec]
  congr 1
  rw [show schedPure reg tLastReport tLastChange timers ⟨⊤, [], ⊤, []⟩
      = ⟨(schedPure reg tLastReport tLastChange timers
            ⟨⊤, [], ⊤, []⟩).timeOfNextReport,
         (schedPure reg tLastReport tLastChange timers
            ⟨⊤, [], ⊤, []⟩).reportTimers,
         (schedPure reg tLastReport tLastChange timers
            ⟨⊤, [], ⊤, []⟩).timeOfNextChange,
         (schedPure reg tLastReport tLastChange timers
            ⟨⊤, [], ⊤, []⟩).changeTimers⟩ from rfl,
    schedPure_tR, schedPure_rL, schedPure_tC, schedPure_cL]
  simp [top_inf_eq]

/-- Scenario S4 data: one event with a single Change action... -/
def s4Event : SEvent := ⟨[ActKind.change]⟩

/-- Scenario S4 registry: just the one Change-action event, id 0. -/
def s4Reg : SReg := [some s4Event]

/-- Scenario S4 timer returning 5.0 (first). -/
def s4T1 : MTimer := ⟨[0], fun _ => ((5 : ℚ) : Time)⟩

/-- Scenario S4 timer returning 5.0 (second). -/
def s4T2 : MTimer := ⟨[0], fun _ => ((5 : ℚ) : Time)⟩

/-- Scenario S4 timer returning 7.0 (third). -/
def s4T3 : MTimer := ⟨[0], fun _ => ((7 : ℚ) : Time)⟩

/-- Witness for C1, scenario S4: three change-timers returning
`{5.0, 5.0, 7.0}` yield `tNextChange = 5.0` with the first two grouped in
adoption order and the third excluded. -/
theorem C1_witness_S4_tie_grouping :
    findNextScheduledEventTimes s4Reg [s4T1, s4T2, s4T3] 0 0
      = .ok ⟨⊤, [], ((5 : ℚ) : Time), [s4T1, s4T2]⟩ := by
  rw [C1_scheduler_classifies_and_groups_ties s4Reg [s4T1, s4T2, s4T3] 0 0
    (by decide)]
  rfl

/-- A change-timer whose `calcTimeOfNextTrigger` returns `dInfinity`:
no further scheduled occurrence exists. -/
def c3Timer : MTimer := ⟨[0], fun _ => (⊤ : Time)⟩

/-- Counterexample to claim C3: a timer returning +∞ is NOT always
excluded from the output lists.  With a single change-timer whose next
time is +∞, the comparison `t > timeOfNextChange` is `∞ > ∞ = false`, so
the timer is appended: `changeTimers = [c3Timer]` although its computed
time is +∞. -/
theorem C3_counterexample_infinite_timer_not_excluded :
    c3Timer.calcTimeOfNextTrigger 0 = ⊤ ∧
    findNextScheduledEventTimes s4Reg [c3Timer] 0 0
      = .ok ⟨⊤, [], ⊤, [c3Timer]⟩ :=
  ⟨rfl, rfl⟩

/-- Claim C3 as amended: an active timer whose `calcTimeOfNextTrigger`
returns +∞ is excluded from both output lists whenever some timer of its
category returns a finite (non-∞) time; when every timer of its category
returns +∞ they are all returned, with next-time +∞. -/
theorem C3_amended_infinite_timer_excluded (reg : SReg)
    (timers : List MTimer) (tLR tLC : Time) (r : SchedResult)
    (hrec : ∀ T ∈ timers, ∀ e ∈ T.eventIds, (reg.getEv e).isSome)
    (hok : findNextScheduledEventTimes reg timers tLR tLC = .ok r)
    (T : MTimer) (hT : T ∈ timers)
    (hinf : T.calcTimeOfNextTrigger
      (if isChangeTimer reg T then tLC else tLR) = ⊤)
    (hfin : ∃ T' ∈ timers, isChangeTimer reg T' = isChangeTimer reg T ∧
      T'.calcTimeOfNextTrigger
        (if isChangeTimer reg T then tLC else tLR) ≠ ⊤) :
    T ∉ r.reportTimers ∧ T ∉ r.changeTimers := by
  rw [findNextScheduledEventTimes, schedLoop_eq_pure reg tLR tLC timers hrec]
    at hok
  have hr : r = schedPure reg tLR tLC timers ⟨⊤, [], ⊤, []⟩ :=
    (Except.ok.inj hok).symm
  obtain ⟨T', hT', hsame, hfin'⟩ := hfin
  by_cases hcls : isChangeTimer reg T
  · rw [if_pos hcls] at hinf hfin'
    constructor
    · intro hmem
      rw [hr, schedPure_rL] at hmem
      rcases List.mem_append.mp hmem with hmem' | hmem'
      · simp at hmem'
      · have h1 : T ∈ repFilter reg timers := List.mem_of_mem_filter hmem'
        rw [repFilter] at h1
        have h2 := List.of_mem_filter h1
        rw [hcls] at h2
        simp at h2
    · intro hmem
      rw [hr, schedPure_cL] at hmem
      rcases List.mem_append.mp hmem with hmem' | hmem'
      · simp at hmem'
      · have hval := List.of_mem_filter hmem'
        dsimp only at hval
        simp only [decide_eq_true_eq] at hval
        rw [hinf] at hval
        have hle : min (⊤ : Time) (bestChg reg tLC timers)
            ≤ T'.calcTimeOfNextTrigger tLC := by
          refine le_trans (min_le_right _ _) ?_
          rw [bestChg]
          refine listMin_le_of_mem (List.mem_map_of_mem _ ?_)
          rw [chgFilter]
          exact List.mem_filter_of_mem hT' (by simpa [hcls] using hsame)
        rw [← hval] at hle
        exact hfin' (top_le_iff.mp hle)
  · rw [if_neg hcls] at hinf hfin'
    constructor
    · intro hmem
      rw [hr, schedPure_rL] at hmem
      rcases List.mem_append.mp hmem with hmem' | hmem'
      · simp at hmem'
      · have hval := List.of_mem_filter hmem'
        dsimp only at hval
        simp only [decide_eq_true_eq] at hval
        rw [hinf] at hval
        have hT'rep : isChangeTimer reg T' = false := by
          rw [hsame]
          simpa using hcls
        have hle : min (⊤ : Time) (bestRep reg tLR timers)
            ≤ T'.calcTimeOfNextTrigger tLR := by
          refine le_trans (min_le_right _ _) ?_
          rw [bestRep]
          refine listMin_le_of_mem (List.mem_map_of_mem _ ?_)
          rw [repFilter]
          exact List.mem_filter_of_mem hT' (by simp [hT'rep])
        rw [← hval] at hle
        exact hfin' (top_le_iff.mp hle)
    · intro hmem
      rw [hr, schedPure_cL] at hmem
      rcases List.mem_append.mp hmem with hmem' | hmem'
      · simp at hmem'
      · have h1 : T ∈ chgFilter reg timers := List.mem_of_mem_filter hmem'
        rw [chgFilter] at h1
        exact hcls (List.of_mem_filter h1)

/-- Witness for the amended C3: with change-timers returning `{∞, 5.0}`,
the ∞-returning timer appears in neither output list. -/
theorem C3_amended_witness :
    c3Timer ∉ (SchedResult.mk ⊤ [] ((5 : ℚ) : Time) [s4T1]).reportTimers ∧
    c3Timer ∉ (SchedResult.mk ⊤ [] ((5 : ℚ) : Time) [s4T1]).changeTimers :=
  C3_amended_infinite_timer_excluded s4Reg [c3Timer, s4T1] 0 0 _
    (by decide) rfl c3Timer (List.mem_cons_self _ _) rfl
    ⟨s4T1, List.mem_cons_of_mem _ (List.mem_cons_self _ _), rfl, by decide⟩

/-! ## Dynamic trigger collection (`EventTriggerCollection`, lines 74-126)

The collection holds two independent slot arrays (timers and witnesses)
managed by the same three template functions `adoptThing`, `removeThing`,
`findFreeSlot`; we model the template over an arbitrary element type.
A slot holds exactly one object or is empty (`Option`). -/

/-- `EventTriggerCollection::findFreeSlot`: reuse the top (back) of the
free-slot stack if non-empty, else append a fresh empty slot; returns the
possibly-grown array, the possibly-popped stack, and the chosen index. -/
def findFreeSlot (things : List (Option α)) (freeSlots : List Nat) :
    List (Option α) × List Nat × Nat :=
  match freeSlots.getLast? with
  | some slot => (things, freeSlots.dropLast, slot)
  | none => (things ++ [none], freeSlots, things.length)

/-- `EventTriggerCollection::adoptThing`: place the new object in the slot
found by `findFreeSlot` (asserted empty) and return its index. -/
def adoptThing (thing : α) (things : List (Option α))
    (freeSlots : List Nat) : (List (Option α) × List Nat) × Nat :=
  match findFreeSlot things freeSlots with
  | (ts, fs, idx) => ((ts.set idx (some thing), fs), idx)

/-- `EventTriggerCollection::removeThing`: truncate if removing the last
slot (`pop_back`), else empty the slot and push its index on the
free-slot stack. -/
def removeThing (idx : Nat) (things : List (Option α))
    (freeSlots : List Nat) : List (Option α) × List Nat :=
  if idx = things.length - 1 then (things.dropLast, freeSlots)
  else (things.set idx none, freeSlots ++ [idx])

/-- One category (timer or witness) of the collection, as operated on by
the template: every non-empty slot holds exactly one object, and an index
is in the free stack iff its slot is empty (each exactly once by
`Nodup`), with all stack entries in range. -/
def CollInv (things : List (Option α)) (freeSlots : List Nat) : Prop :=
  (∀ i, i < things.length → (things[i]? = some none ↔ i ∈ freeSlots)) ∧
  freeSlots.Nodup ∧ (∀ i ∈ freeSlots, i < things.length)

/-- An adopt or remove call on one category of the collection. -/
inductive CollOp (α : Type) where
  | adopt (x : α)
  | remove (idx : Nat)

/-- One call; `remove` carries the source's `assert(things[thingIndex])`
precondition (in-range, occupied slot), modelled as a guard. -/
def collStep (things : List (Option α)) (freeSlots : List Nat) :
    CollOp α → Option (List (Option α) × List Nat)
  | .adopt x => some (adoptThing x things freeSlots).1
  | .remove idx =>
    if idx < things.length ∧ (things[idx]?.getD none).isSome = true then
      some (removeThing idx things freeSlots)
    else none

/-- Run a sequence of adopt/remove calls. -/
def collRun (st : List (Option α) × List Nat) :
    List (CollOp α) → Option (List (Option α) × List Nat)
  | [] => some st
  | op :: ops =>
    match collStep st.1 st.2 op with
    | none => none
    | some st' => collRun st' ops

lemma getElem?_dropLast_of_lt {l : List α} {i : Nat} (h : i < l.length - 1) :
    l.dropLast[i]? = l[i]? := by
  rw [List.getElem?_eq_getElem (by simpa using h),
    List.getElem?_eq_getElem (by omega : i < l.length), List.getElem_dropLast]

lemma set_append_singleton (l : List α) (a b : α) :
    (l ++ [a]).set l.length b = l ++ [b] := by
  induction l with
  | nil => rfl
  | cons x xs ih => simp [ih]

lemma collInv_adopt {things : List (Option α)} {freeSlots : List Nat}
    (hInv : CollInv things freeSlots) (x : α) :
    CollInv (adoptThing x things freeSlots).1.1
            (adoptThing x things freeSlots).1.2 := by
  obtain ⟨hiff, hnd, hbd⟩ := hInv
  match hfs : freeSlots.getLast? with
  | none =>
    have hempty : freeSlots = [] := List.getLast?_eq_none_iff.mp hfs
    subst hempty
    simp only [adoptThing, findFreeSlot, hfs]
    rw [set_append_singleton]
    refine ⟨?_, List.nodup_nil, by simp⟩
    intro i hi
    simp only [List.mem_nil_iff, iff_false]
    rw [List.length_append, List.length_singleton] at hi
    rcases Nat.lt_succ_iff_lt_or_eq.mp hi with hi' | rfl
    · rw [List.getElem?_append_left hi']
      intro hcon
      exact (List.not_mem_nil i) ((hiff i hi').mp hcon)
    · rw [List.getElem?_concat_length]
      simp
  | some slot =>
    have hdecomp : freeSlots.dropLast ++ [slot] = freeSlots :=
      List.dropLast_append_getLast? slot (Option.mem_def.mpr hfs)
    have hmem : slot ∈ freeSlots := by
      rw [← hdecomp]
      exact List.mem_append_right _ (List.mem_singleton_self _)
    have hslot : slot < things.length := hbd slot hmem
    have hnotd : slot ∉ freeSlots.dropLast := by
      intro hin
      rw [← hdecomp] at hnd
      simp only [List.nodup_append, List.nodup_cons, List.not_mem_nil,
        not_false_iff, List.nodup_nil, and_true, List.disjoint_singleton]
        at hnd
      exact hnd.2.2 hin
    simp only [adoptThing, findFreeSlot, hfs]
    refine ⟨?_, hnd.sublist (List.dropLast_sublist _), ?_⟩
    · intro i hi
      rw [List.length_set] at hi
      by_cases hieq : i = slot
      · subst hieq
        rw [List.getElem?_set_self hslot]
        simp [hnotd]
      · rw [List.getElem?_set_ne (fun h => hieq h.symm)]
        rw [hiff i hi]
        constructor
        · intro hif
          rcases List.mem_append.mp (hdecomp ▸ hif) with h' | h'
          · exact h'
          · exact absurd (List.mem_singleton.mp h') hieq
        · intro hif
          rw [← hdecomp]
          exact List.mem_append_left _ hif
    · intro i hi
      rw [List.length_set]
      exact hbd i (by rw [← hdecomp]; exact List.mem_append_left _ hi)

lemma collInv_remove {things : List (Option α)} {freeSlots : List Nat}
    (hInv : CollInv things freeSlots) (idx : Nat)
    (hlt : idx < things.length) (hocc : (things[idx]?.getD none).isSome = true) :
    CollInv (removeThing idx things freeSlots).1
            (removeThing idx things freeSlots).2 := by
  obtain ⟨hiff, hnd, hbd⟩ := hInv
  have hnotfree : idx ∉ freeSlots := by
    intro hin
    have := (hiff idx hlt).mpr hin
    rw [this] at hocc
    simp at hocc
  by_cases hlast : idx = things.length - 1
  · simp only [removeThing, if_pos hlast]
    refine ⟨?_, hnd, ?_⟩
    · intro i hi
      rw [List.length_dropLast] at hi
      rw [getElem?_dropLast_of_lt hi]
      exact hiff i (by omega)
    · intro i hi
      rw [List.length_dropLast]
      have h1 := hbd i hi
      have h2 : i ≠ idx := fun h => hnotfree (h ▸ hi)
      omega
  · simp only [removeThing, if_neg hlast]
    refine ⟨?_, ?_, ?_⟩
    · intro i hi
      rw [List.length_set] at hi
      by_cases hieq : i = idx
      · subst hieq
        rw [List.getElem?_set_self hlt]
        simp
      · rw [List.getElem?_set_ne (fun h => hieq h.symm)]
        rw [hiff i hi, List.mem_append, List.mem_singleton]
        exact ⟨fun h => Or.inl h, fun h => h.resolve_right hieq⟩
    · simp [List.nodup_append, hnd, hnotfree]
    · intro i hi
      rw [List.length_set]
      rcases List.mem_append.mp hi with h' | h'
      · exact hbd i h'
      · rw [List.mem_singleton.mp h']
        exact hlt

lemma collInv_run {ops : List (CollOp α)}
    {things things' : List (Option α)} {freeSlots freeSlots' : List Nat}
    (hInv : CollInv things freeSlots)
    (hrun : collRun (things, freeSlots) ops = some (things', freeSlots')) :
    CollInv things' freeSlots' := by
  induction ops generalizing things freeSlots with
  | nil =>
    cases Option.some.inj hrun
    exact hInv
  | cons op ops ih =>
    match op with
    | .adopt x =>
      simp only [collRun, collStep] at hrun
      exact ih (collInv_adopt hInv x) hrun
    | .remove idx =>
      simp only [collRun, collStep] at hrun
      by_cases hg : idx < things.length ∧ (things[idx]?.getD none).isSome = true
      · rw [if_pos hg] at hrun
        exact ih (collInv_remove hInv idx hg.1 hg.2) hrun
      · rw [if_neg hg] at hrun
        cases hrun

/-- Claim C7: across every (precondition-respecting) sequence of adopt and
remove calls the collection invariant is maintained — every non-empty slot
holds exactly one object (slots are `Option`-valued) and every empty slot
is on the free-slot stack exactly once, never both empty and off the
stack — and the slot policy holds: adoption pops the top of a non-empty
free stack, otherwise appends; removal of the last slot truncates, removal
of an interior slot empties it and pushes its index. -/
theorem C7_collection_invariant_and_slot_policy {α : Type}
    (ops : List (CollOp α)) (things things' : List (Option α))
    (freeSlots freeSlots' : List Nat)
    (hInv : CollInv things freeSlots)
    (hrun : collRun (things, freeSlots) ops = some (things', freeSlots')) :
    CollInv things' freeSlots' ∧
    (∀ (x : α) (ts : List (Option α)) (fs : List Nat) (s : Nat),
      fs.getLast? = some s →
      adoptThing x ts fs = ((ts.set s (some x), fs.dropLast), s)) ∧
    (∀ (x : α) (ts : List (Option α)),
      adoptThing x ts [] = ((ts ++ [some x], []), ts.length)) ∧
    (∀ (idx : Nat) (ts : List (Option α)) (fs : List Nat),
      idx = ts.length - 1 → removeThing idx ts fs = (ts.dropLast, fs)) ∧
    (∀ (idx : Nat) (ts : List (Option α)) (fs : List Nat),
      idx ≠ ts.length - 1 →
      removeThing idx ts fs = (ts.set idx none, fs ++ [idx])) := by
  refine ⟨collInv_run hInv hrun, ?_, ?_, ?_, ?_⟩
  · intro x ts fs s hs
    simp [adoptThing, findFreeSlot, hs]
  · intro x ts
    simp [adoptThing, findFreeSlot, set_append_singleton]
  · intro idx ts fs h
    simp [removeThing, if_pos h]
  · intro idx ts fs h
    simp [removeThing, if_neg h]

/-- Witness for C7: a concrete run (adopt, adopt, adopt, remove interior,
adopt reusing the slot, remove last) from the empty collection satisfies
the invariant at the end. -/
theorem C7_witness :
    CollInv [some 10, some 40] ([] : List Nat) :=
  (C7_collection_invariant_and_slot_policy
    [CollOp.adopt 10, CollOp.adopt 20, CollOp.adopt 30,
     CollOp.remove 1, CollOp.adopt 40, CollOp.remove 2]
    [] [some 10, some 40] [] []
    ⟨fun i hi => absurd hi (by simp), List.nodup_nil,
      fun i hi => absurd hi (List.not_mem_nil i)⟩
    (by decide)).1

/-- The `EventTriggerCollection` local class: a slot-recycling container
for run-time timers and witnesses, one slot array and free-slot stack per
category. -/
structure EventTriggerCollection (τ ω : Type) where
  m_timers : List (Option τ)
  m_freeTimers : List Nat
  m_witnesses : List (Option ω)
  m_freeWitnesses : List Nat

/-- `EventTriggerCollection::adoptTimer`. -/
def EventTriggerCollection.adoptTimer (c : EventTriggerCollection τ ω)
    (t : τ) : EventTriggerCollection τ ω × Nat :=
  match adoptThing t c.m_timers c.m_freeTimers with
  | ((ts, fs), idx) =>
    ({ c with m_timers := ts, m_freeTimers := fs }, idx)

/-- `EventTriggerCollection::removeTimer`. -/
def EventTriggerCollection.removeTimer (c : EventTriggerCollection τ ω)
    (idx : Nat) : EventTriggerCollection τ ω :=
  match removeThing idx c.m_timers c.m_freeTimers with
  | (ts, fs) => { c with m_timers := ts, m_freeTimers := fs }

/-- `EventTriggerCollection::adoptWitness`. -/
def EventTriggerCollection.adoptWitness (c : EventTriggerCollection τ ω)
    (w : ω) : EventTriggerCollection τ ω × Nat :=
  match adoptThing w c.m_witnesses c.m_freeWitnesses with
  | ((ws, fs), idx) =>
    ({ c with m_witnesses := ws, m_freeWitnesses := fs }, idx)

/-- `EventTriggerCollection::removeWitness`. -/
def EventTriggerCollection.removeWitness (c : EventTriggerCollection τ ω)
    (idx : Nat) : EventTriggerCollection τ ω :=
  match removeThing idx c.m_witnesses c.m_freeWitnesses with
  | (ws, fs) => { c with m_witnesses := ws, m_freeWitnesses := fs }

/-- The empty collection, as allocated at the start of
`realizeTopology`. -/
def EventTriggerCollection.empty : EventTriggerCollection τ ω :=
  ⟨[], [], [], []⟩

/-- Scenario S6 witnesses are labelled 1-4.  Steps of the scenario:
adopt W1, W2, W3; remove W2 (slot 1); adopt W4; remove W4; remove W3. -/
def s6Step1 : EventTriggerCollection Nat Nat × Nat :=
  EventTriggerCollection.empty.adoptWitness 1

/-- Scenario S6 after adopting W2. -/
def s6Step2 : EventTriggerCollection Nat Nat × Nat :=
  s6Step1.1.adoptWitness 2

/-- Scenario S6 after adopting W3. -/
def s6Step3 : EventTriggerCollection Nat Nat × Nat :=
  s6Step2.1.adoptWitness 3

/-- Scenario S6 after removing W2 (its slot index is 1). -/
def s6Step4 : EventTriggerCollection Nat Nat :=
  s6Step3.1.removeWitness 1

/-- Scenario S6 after adopting W4 (reuses slot 1). -/
def s6Step5 : EventTriggerCollection Nat Nat × Nat :=
  s6Step4.adoptWitness 4

/-- Scenario S6 after removing W4 (slot 1). -/
def s6Step6 : EventTriggerCollection Nat Nat :=
  s6Step5.1.removeWitness 1

/-- Scenario S6 final state, after removing W3 (slot 2). -/
def s6Final : EventTriggerCollection Nat Nat :=
  s6Step6.removeWitness 2

/-- Counterexample to claim C6: after the S6 sequence the witness slot
array has length 2, not 1 — removing the last slot truncates exactly one
slot (`pop_back`) and does not reclaim the empty slot 1 left behind, which
stays on the free stack. -/
theorem C6_counterexample_final_length_two :
    s6Final.m_witnesses.length = 2 ∧ ¬ s6Final.m_witnesses.length = 1 := by
  decide

/-- Claim C6 as amended: W1, W2, W3 receive indices 0, 1, 2; after
removing W2, W4 reuses index 1; after removing W4 and then W3 the slot
array has length 2 — W1 in slot 0 and an empty slot 1 recorded once on
the free stack — so W1 is the only witness still held. -/
theorem C6_amended_slot_recycling :
    s6Step1.2 = 0 ∧ s6Step2.2 = 1 ∧ s6Step3.2 = 2 ∧ s6Step5.2 = 1 ∧
    s6Final.m_witnesses = [some 1, none] ∧
    s6Final.m_freeWitnesses = [1] ∧
    s6Final.m_witnesses.filterMap id = [1] := by
  decide

/-! ## Active-set query (`findActiveEventWitnesses` /
`findActiveEventTimers`, lines 755-775) -/

/-- `SystemGlobalSubsystem::findActiveEventWitnesses`: the output array is
assigned from the static topology cache (`guts.m_witnesses`) only.  The
dynamic collection held by the state is NOT consulted — the source carries
`TODO: collect dynamic witnesses from state.`  The state's dynamic slot
array is a parameter here precisely to show it is ignored. -/
def findActiveEventWitnesses (cacheWitnesses : List ω)
    (stateDynWitnesses : List (Option ω)) : List ω :=
  cacheWitnesses

/-- `SystemGlobalSubsystem::findActiveEventTimers`: likewise assigns only
the static cache (`guts.m_timers`); dynamic timers are a `TODO`. -/
def findActiveEventTimers (cacheTimers : List τ)
    (stateDynTimers : List (Option τ)) : List τ :=
  cacheTimers

/-- Modelled from the spec (refinement comparison for C4): the spec's
described active-witness query — static cache sequence concatenated with
the dynamic-collection sequence in slot order, skipping empty slots. -/
def findActiveWitnessesSpec (cacheWitnesses : List ω)
    (stateDynWitnesses : List (Option ω)) : List ω :=
  cacheWitnesses ++ stateDynWitnesses.filterMap id

/-- Modelled from the spec (refinement comparison for C4): the spec's
described active-timer query. -/
def findActiveTimersSpec (cacheTimers : List τ)
    (stateDynTimers : List (Option τ)) : List τ :=
  cacheTimers ++ stateDynTimers.filterMap id

/-- Counterexample to claim C4: with one static witness (label 0) and one
dynamic witness (label 1) in the state, the function returns only the
static sequence, not the concatenation the claim describes. -/
theorem C4_counterexample_dynamic_not_appended :
    findActiveEventWitnesses [0] [some 1] = [0] ∧
    ¬ (findActiveEventWitnesses [0] [some 1]
        = findActiveWitnessesSpec [0] [some 1]) := by
  decide

/-- Claim C4 as amended: both queries return exactly the static
topology-cache sequence in cache order; the dynamic collection is never
consulted (a TODO in the source), so the output agrees with the
spec-described concatenation exactly when the state's dynamic collection
holds no entries. -/
theorem C4_amended_static_cache_only {τ ω : Type} (cw : List ω)
    (ct : List τ) (dw : List (Option ω)) (dt : List (Option τ)) :
    (findActiveEventWitnesses cw dw = cw ∧
     findActiveEventTimers ct dt = ct) ∧
    (findActiveEventWitnesses cw dw = findActiveWitnessesSpec cw dw
       ↔ dw.filterMap id = []) ∧
    (findActiveEventTimers ct dt = findActiveTimersSpec ct dt
       ↔ dt.filterMap id = []) := by
  refine ⟨⟨rfl, rfl⟩, ?_, ?_⟩
  · rw [findActiveEventWitnesses, findActiveWitnessesSpec]
    exact List.self_eq_append_right
  · rw [findActiveEventTimers, findActiveTimersSpec]
    exact List.self_eq_append_right

/-! ## Change-action dispatcher (`performEventChangeActions`,
lines 902-926) -/

/-- Exit status an action reports into the `EventChangeResult`. -/
inductive ExitStatus where
  | succeeded
  | shouldTerminate
  | failed
  deriving Repr, DecidableEq

/-- The mutable state as the dispatcher sees it: the per-stage version
numbers (`getSystemStageVersions`) plus opaque contents. -/
structure MState where
  stageVersions : List Nat
  contents : Nat
  deriving Repr, DecidableEq

/-- A Change action: given the (internal) state and the causing triggers,
it may modify the state and reports an exit status. -/
abbrev ChangeAction := MState → List Nat → MState × ExitStatus

/-- An event as the change dispatcher sees it: its Change actions in
adoption order. -/
structure CEvent where
  changeActions : List ChangeAction

/-- `EventChangeResult`: exit statuses accumulated by the actions and the
lowest modified stage; `clear()` empties both. -/
structure EventChangeResult where
  statuses : List ExitStatus
  lowestModifiedStage : Option Nat

/-- Modelled from the spec: `State::getSystemStageVersions` (not under
`src/`) returns the per-stage version number vector; the modelled state
carries that vector directly. -/
def getSystemStageVersions (s : MState) : List Nat := s.stageVersions

/-- Modelled from the spec: `State::getLowestSystemStageDifference` (not
under `src/`) returns the lowest stage whose version number differs from
the snapshot, `none` when no stage differs (the source returns
`Stage::Infinity` there). -/
def getLowestSystemStageDifference : List Nat → List Nat → Option Nat
  | [], [] => none
  | [], _ :: _ => some 0
  | _ :: _, [] => some 0
  | a :: as, b :: bs =>
    if a = b then
      match getLowestSystemStageDifference as bs with
      | none => none
      | some k => some (k + 1)
    else some 0

/-- Modelled from the spec: `Event::performChangeActions` (not under
`src/`) invokes every Change action of the event in adoption order,
feeding it the study, the causes and the result; each action appends its
exit status into the result. -/
def runEventActs (causes : List Nat) (acts : List ChangeAction)
    (s : MState) (r : EventChangeResult) : MState × EventChangeResult :=
  match acts with
  | [] => (s, r)
  | a :: rest =>
    match a s causes with
    | (s', st) =>
      runEventActs causes rest s'
        { r with statuses := r.statuses ++ [st] }

/-- The dispatcher's loop over the `(event, causes)` entries. -/
def dispatchLoop (tes : List (CEvent × List Nat)) (s : MState)
    (r : EventChangeResult) : MState × EventChangeResult :=
  match tes with
  | [] => (s, r)
  | (e, cs) :: rest =>
    match runEventActs cs e.changeActions s r with
    | (s', r') => dispatchLoop rest s' r'

/-- `SystemGlobalSubsystem::performEventChangeActions`: assert the entry
list non-empty, snapshot the stage versions, clear the result, run every
entry's change actions, then record the lowest stage whose version
changed. -/
def performEventChangeActions (s : MState)
    (triggeredEvents : List (CEvent × List Nat))
    (result : EventChangeResult) : Option (MState × EventChangeResult) :=
  if triggeredEvents.isEmpty then none
  else
    let stageVersions := getSystemStageVersions s
    match dispatchLoop triggeredEvents s ⟨[], none⟩ with
    | (s', r') =>
      some (s', { r' with lowestModifiedStage :=
        getLowestSystemStageDifference s'.stageVersions stageVersions })

/-- Reference sequential execution of a flat action list. -/
def runActions (s : MState) :
    List (ChangeAction × List Nat) → MState × List ExitStatus
  | [] => (s, [])
  | (a, cs) :: rest =>
    match a s cs with
    | (s', st) =>
      match runActions s' rest with
      | (s'', sts) => (s'', st :: sts)

lemma runEventActs_eq (causes : List Nat) (acts : List ChangeAction)
    (s : MState) (r : EventChangeResult) :
    runEventActs causes acts s r
      = ((runActions s (acts.map (fun a => (a, causes)))).1,
         { r with statuses := r.statuses
            ++ (runActions s (acts.map (fun a => (a, causes)))).2 }) := by
  induction acts generalizing s r with
  | nil => simp [runEventActs, runActions]
  | cons a rest ih =>
    simp only [runEventActs, List.map_cons, runActions]
    match ha : a s causes with
    | (s', st) =>
      rw [ih]
      match hrest : runActions s' (rest.map (fun a => (a, causes))) with
      | (s'', sts) => simp

lemma runActions_append (s : MState)
    (l₁ l₂ : List (ChangeAction × List Nat)) :
    runActions s (l₁ ++ l₂)
      = ((runActions (runActions s l₁).1 l₂).1,
         (runActions s l₁).2 ++ (runActions (runActions s l₁).1 l₂).2) := by
  induction l₁ generalizing s with
  | nil => simp [runActions]
  | cons p rest ih =>
    match p with
    | (a, cs) =>
      simp only [List.cons_append, runActions, List.append_eq]
      match ha : a s cs with
      | (s', st) =>
        dsimp only
        rw [ih]

lemma dispatchLoop_eq (tes : List (CEvent × List Nat)) (s : MState)
    (r : EventChangeResult) :
    dispatchLoop tes s r
      = ((runActions s (tes.flatMap
            (fun ec => ec.1.changeActions.map (fun a => (a, ec.2))))).1,
         { r with statuses := r.statuses
            ++ (runActions s (tes.flatMap
                 (fun ec => ec.1.changeActions.map (fun a => (a, ec.2))))).2 }) := by
  induction tes generalizing s r with
  | nil => simp [dispatchLoop, runActions]
  | cons ec rest ih =>
    match ec with
    | (e, cs) =>
      simp only [dispatchLoop, List.flatMap_cons]
      rw [runEventActs_eq]
      rw [ih]
      rw [runActions_append]
      simp [List.append_assoc]

lemma lowestDiff_none_iff (cur snap : List Nat) :
    getLowestSystemStageDifference cur snap = none ↔ cur = snap := by
  induction cur generalizing snap with
  | nil =>
    cases snap <;> simp [getLowestSystemStageDifference]
  | cons a as ih =>
    cases snap with
    | nil => simp [getLowestSystemStageDifference]
    | cons b bs =>
      by_cases hab : a = b
      · subst hab
        rw [show getLowestSystemStageDifference (a :: as) (a :: bs)
            = match getLowestSystemStageDifference as bs with
              | none => none
              | some k => some (k + 1) from by
          simp [getLowestSystemStageDifference]]
        rcases hrec : getLowestSystemStageDifference as bs with _ | k'
        · simpa using (ih bs).mp hrec
        · have hne : as ≠ bs := fun hh => by
            rw [(ih bs).mpr hh] at hrec
            cases hrec
          simp [hne]
      · simp [getLowestSystemStageDifference, hab]

lemma lowestDiff_some (cur snap : List Nat) (k : Nat)
    (h : getLowestSystemStageDifference cur snap = some k) :
    cur.get? k ≠ snap.get? k ∧
    ∀ j, j < k → cur.get? j = snap.get? j := by
  induction cur generalizing snap k with
  | nil =>
    cases snap with
    | nil => simp [getLowestSystemStageDifference] at h
    | cons b bs =>
      simp only [getLowestSystemStageDifference, Option.some.injEq] at h
      subst h
      simp
  | cons a as ih =>
    cases snap with
    | nil =>
      simp only [getLowestSystemStageDifference, Option.some.injEq] at h
      subst h
      simp
    | cons b bs =>
      by_cases hab : a = b
      · subst hab
        rw [show getLowestSystemStageDifference (a :: as) (a :: bs)
            = match getLowestSystemStageDifference as bs with
              | none => none
              | some k => some (k + 1) from by
          simp [getLowestSystemStageDifference]] at h
        rcases hrec : getLowestSystemStageDifference as bs with _ | k'
        · rw [hrec] at h
          cases h
        · rw [hrec] at h
          simp only [Option.some.injEq] at h
          subst h
          obtain ⟨h1, h2⟩ := ih bs k' hrec
          refine ⟨by simpa using h1, ?_⟩
          intro j hj
          cases j with
          | zero => simp
          | succ j' =>
            simp only [List.get?_cons_succ]
            exact h2 j' (by omega)
      · simp only [getLowestSystemStageDifference, if_neg hab,
          Option.some.injEq] at h
        subst h
        simpa using hab

/-- Claim C5: with a non-empty `triggeredEvents` list, the result is
cleared before any action runs (the output is independent of the incoming
result accumulator and its statuses are exactly those reported by the
actions of this call), every Change action of every listed event is
invoked in list order (the final state and status list equal the
sequential run of the flattened action list), and on return
`lowestModifiedStage` is the lowest stage whose version differs between
the entry snapshot and the returned state (`none` exactly when no stage
changed). -/
theorem C5_change_dispatcher_clears_runs_and_stages (s : MState)
    (tes : List (CEvent × List Nat)) (r0 r1 : EventChangeResult)
    (hne : tes ≠ []) :
    performEventChangeActions s tes r0
        = performEventChangeActions s tes r1 ∧
    performEventChangeActions s tes r0 = some
      ((runActions s (tes.flatMap
          (fun ec => ec.1.changeActions.map (fun a => (a, ec.2))))).1,
       { statuses := (runActions s (tes.flatMap
           (fun ec => ec.1.changeActions.map (fun a => (a, ec.2))))).2,
         lowestModifiedStage := getLowestSystemStageDifference
           (runActions s (tes.flatMap
             (fun ec => ec.1.changeActions.map
               (fun a => (a, ec.2))))).1.stageVersions
           s.stageVersions }) ∧
    (∀ s' : MState, ∀ r' : EventChangeResult,
      performEventChangeActions s tes r0 = some (s', r') →
      (r'.lowestModifiedStage = none ↔ s'.stageVersions = s.stageVersions) ∧
      (∀ k, r'.lowestModifiedStage = some k →
        s'.stageVersions.get? k ≠ s.stageVersions.get? k ∧
        ∀ j, j < k → s'.stageVersions.get? j = s.stageVersions.get? j)) := by
  have hmain : ∀ r : EventChangeResult, performEventChangeActions s tes r
      = some
      ((runActions s (tes.flatMap
          (fun ec => ec.1.changeActions.map (fun a => (a, ec.2))))).1,
       { statuses := (runActions s (tes.flatMap
           (fun ec => ec.1.changeActions.map (fun a => (a, ec.2))))).2,
         lowestModifiedStage := getLowestSystemStageDifference
           (runActions s (tes.flatMap
             (fun ec => ec.1.changeActions.map
               (fun a => (a, ec.2))))).1.stageVersions
           s.stageVersions }) := by
    intro r
    rw [performEventChangeActions,
      if_neg (by simpa [List.isEmpty_iff] using hne)]
    rw [dispatchLoop_eq]
    simp [getSystemStageVersions]
  refine ⟨(hmain r0).trans (hmain r1).symm, hmain r0, ?_⟩
  intro s' r' hout
  rw [hmain r0] at hout
  obtain ⟨h1, h2⟩ := Prod.mk.injEq .. ▸ Option.some.inj hout
  subst h1
  subst h2
  constructor
  · exact lowestDiff_none_iff _ _
  · intro k hk
    exact lowestDiff_some _ _ k hk

/-- Concrete state for the C5 witness: two stages, versions `[3, 7]`. -/
def c5State : MState := ⟨[3, 7], 0⟩

/-- Concrete Change action for the C5 witness: bumps the version of
stage 1 and reports success. -/
def c5Act : ChangeAction := fun st _ =>
  ({ st with stageVersions := [3, 8] }, ExitStatus.succeeded)

/-- Concrete event for the C5 witness, with the single action `c5Act`. -/
def c5Event : CEvent := ⟨[c5Act]⟩

/-- Witness for C5: dispatching one event whose action bumps stage 1
ignores the garbage in the incoming result and reports
`lowestModifiedStage = some 1`. -/
theorem C5_witness :
    performEventChangeActions c5State [(c5Event, [2])]
        ⟨[ExitStatus.failed], some 0⟩
      = performEventChangeActions c5State [(c5Event, [2])] ⟨[], none⟩ ∧
    performEventChangeActions c5State [(c5Event, [2])]
        ⟨[ExitStatus.failed], some 0⟩
      = some (⟨[3, 8], 0⟩, ⟨[ExitStatus.succeeded], some 1⟩) :=
  ⟨(C5_change_dispatcher_clears_runs_and_stages c5State [(c5Event, [2])]
      ⟨[ExitStatus.failed], some 0⟩ ⟨[], none⟩ (by simp)).1,
   ((C5_change_dispatcher_clears_runs_and_stages c5State [(c5Event, [2])]
      ⟨[ExitStatus.failed], some 0⟩ ⟨[], none⟩ (by simp)).2.1).trans (by rfl)⟩

/-! ## Static registries and validated accessors (lines 641-696)

The event registry `m_events` and the trigger registry `m_triggers` are
operated on by textually identical code (`adoptEvent`/`adoptEventTrigger`,
`getEvent`/`getEventTrigger`, `hasEvent`/`hasEventTrigger`, ...); one
model covers both.  Ids are modelled as `Int` so that the invalid sentinel
(a negative value; `isValid()` is `ix >= 0`) is representable. -/

/-- A registered event: opaque payload plus the `m_eventId` written back
at adoption. -/
structure REvent where
  data : Nat
  eid : Nat
  deriving Repr, DecidableEq

/-- The registry array `m_events` (equally `m_triggers`). -/
abbrev EventRegistry := List (Option REvent)

/-- `Index::isValid()` for the SimTK id types: the sentinel and every
other invalid value are negative. -/
def idIsValid (id : Int) : Bool := 0 ≤ id

/-- `SimTK::isIndexInRange(ix, n)`: `0 <= ix < n`. -/
def isIndexInRange (ix n : Int) : Bool := 0 ≤ ix && ix < n

/-- `SystemGlobalSubsystem::hasEvent`: an argument check rejects an
invalid (sentinel) id, then the result is `true` iff the id is in range
and its slot is occupied. -/
def hasEvent (reg : EventRegistry) (id : Int) : Except Err Bool :=
  if ¬ idIsValid id then .error .invalidArgument
  else .ok (isIndexInRange id reg.length
            && (reg.getD id.toNat none).isSome)

/-- `SystemGlobalSubsystem::getEvent`: argument check, then
`SimTK_INDEXCHECK_ALWAYS`, then the `Missing` check on the slot. -/
def getEvent (reg : EventRegistry) (id : Int) : Except Err REvent :=
  if ¬ idIsValid id then .error .invalidArgument
  else if ¬ isIndexInRange id reg.length then .error .invalidIndex
  else match reg.getD id.toNat none with
    | none => .error .missing
    | some e => .ok e

/-- `SystemGlobalSubsystem::updEvent`: same checks as `getEvent`, writable
access. -/
def updEvent (reg : EventRegistry) (id : Int) : Except Err REvent :=
  if ¬ idIsValid id then .error .invalidArgument
  else if ¬ isIndexInRange id reg.length then .error .invalidIndex
  else match reg.getD id.toNat none with
    | none => .error .missing
    | some e => .ok e

/-- `SystemGlobalSubsystem::adoptEvent`: reject a null pointer with
`InvalidArgument`, else assign `EventId(m_events.size())`, write it into
the event, store the event, and return the id. -/
def adoptEvent (reg : EventRegistry) (eventp : Option REvent) :
    Except Err (EventRegistry × Nat) :=
  match eventp with
  | none => .error .invalidArgument
  | some e => .ok (reg ++ [some { e with eid := reg.length }], reg.length)

/-- Counterexample to claim C8: `hasEvent` on the invalid sentinel id does
NOT return `false` — the `SimTK_APIARGCHECK` argument check rejects it. -/
theorem C8_counterexample_sentinel_raises :
    hasEvent [some ⟨0, 0⟩] (-1) = .error .invalidArgument ∧
    ¬ (hasEvent [some ⟨0, 0⟩] (-1) = .ok false) := by
  refine ⟨rfl, ?_⟩
  intro h
  have h2 : (Except.error Err.invalidArgument : Except Err Bool)
      = .ok false :=
    (rfl : hasEvent [some ⟨0, 0⟩] (-1)
        = .error .invalidArgument).symm.trans h
  cases h2

/-- Claim C8 as amended: for every valid (non-negative) id, including any
id at or beyond the registry size, `hasEvent` returns a Boolean rather
than raising, and it returns `true` exactly for an in-range id whose slot
is occupied; the invalid sentinel id is rejected by the argument check
(active in checked builds) instead of returning `false`. -/
theorem C8_amended_hasEvent_total_on_valid_ids (reg : EventRegistry)
    (id : Int) (h : 0 ≤ id) :
    ∃ b, hasEvent reg id = .ok b ∧
      (b = true ↔ id.toNat < reg.length
        ∧ (reg.getD id.toNat none).isSome) := by
  refine ⟨_, by rw [hasEvent, if_neg (by simp [idIsValid, h])], ?_⟩
  simp only [Bool.and_eq_true, isIndexInRange]
  constructor
  · rintro ⟨h1, h2⟩
    simp only [Bool.and_eq_true, decide_eq_true_eq] at h1
    exact ⟨by omega, h2⟩
  · rintro ⟨h1, h2⟩
    refine ⟨by simp only [Bool.and_eq_true, decide_eq_true_eq]; omega, h2⟩

/-- Witness for the amended C8: an out-of-range valid id returns
`ok false` rather than raising. -/
theorem C8_amended_witness :
    hasEvent [some ⟨0, 0⟩, none] 5 = .ok false := by
  obtain ⟨b, hb, hiff⟩ :=
    C8_amended_hasEvent_total_on_valid_ids [some ⟨0, 0⟩, none] 5
      (by omega)
  rw [hb]
  have : b = false := by
    rcases Bool.eq_false_or_eq_true b with h | h
    · exact absurd (hiff.mp h).1 (by decide)
    · exact h
  rw [this]

/-- Registry invariant for C9: every slot below the size is occupied and
holds the event whose stored id equals its slot index. -/
def EventRegInv (reg : EventRegistry) : Prop :=
  ∀ i, i < reg.length →
    ∃ e : REvent, reg.getD i none = some e ∧ e.eid = i

/-- A sequence of successful adoptions (`adoptEvent` with non-null
pointers); adoption is the only operation that ever touches the registry
array. -/
def runAdopts (reg : EventRegistry) : List REvent → EventRegistry
  | [] => reg
  | e :: es => runAdopts (reg ++ [some { e with eid := reg.length }]) es

lemma runAdopts_length (reg : EventRegistry) (es : List REvent) :
    (runAdopts reg es).length = reg.length + es.length := by
  induction es generalizing reg with
  | nil => simp [runAdopts]
  | cons e es ih =>
    rw [runAdopts, ih]
    simp
    omega

lemma runAdopts_inv {reg : EventRegistry} (hInv : EventRegInv reg)
    (es : List REvent) : EventRegInv (runAdopts reg es) := by
  induction es generalizing reg with
  | nil => exact hInv
  | cons e es ih =>
    rw [runAdopts]
    refine ih ?_
    intro i hi
    rw [List.length_append, List.length_singleton] at hi
    rcases Nat.lt_succ_iff_lt_or_eq.mp hi with hi' | rfl
    · obtain ⟨e', he', hid⟩ := hInv i hi'
      refine ⟨e', ?_, hid⟩
      rw [List.getD_eq_getElem?_getD, List.getElem?_append_left hi',
        ← List.getD_eq_getElem?_getD]
      exact he'
    · refine ⟨{ e with eid := reg.length }, ?_, rfl⟩
      rw [List.getD_eq_getElem?_getD, List.getElem?_concat_length]
      rfl

lemma runAdopts_getD_low (reg : EventRegistry) (es : List REvent) (i : Nat)
    (hi : i < reg.length) :
    (runAdopts reg es).getD i none = reg.getD i none := by
  induction es generalizing reg with
  | nil => rfl
  | cons e es ih =>
    rw [runAdopts, ih _ (by simp; omega)]
    rw [List.getD_eq_getElem?_getD, List.getElem?_append_left hi,
      ← List.getD_eq_getElem?_getD]

lemma runAdopts_slot (reg : EventRegistry) (es : List REvent) (j : Nat)
    (hj : j < es.length) :
    (runAdopts reg es).getD (reg.length + j) none
      = some { es.get ⟨j, hj⟩ with eid := reg.length + j } := by
  induction es generalizing reg j with
  | nil => cases hj
  | cons e es ih =>
    rw [runAdopts]
    cases j with
    | zero =>
      rw [Nat.add_zero,
        runAdopts_getD_low _ _ reg.length (by simp),
        List.getD_eq_getElem?_getD, List.getElem?_concat_length]
      rfl
    | succ j' =>
      have harr : reg.length + (j' + 1)
          = (reg ++ [some { e with eid := reg.length }]).length + j' := by
        simp
        omega
      rw [harr, ih _ j' (by simpa using hj)]
      simp

/-- Claim C9 (implicit): starting from any registry satisfying the
occupancy invariant (in particular the constructor's four predefined
events, or the empty registry), any sequence of adoptions preserves it:
adoption rejects null pointers, ids are assigned consecutively from the
current size in adoption order, every valid id `k < numEvents()` has
`hasEvent k = true` and succeeding `getEvent`/`updEvent`, and the
`Missing` (empty-slot) error branch of the validated lookups is
unreachable. -/
theorem C9_registry_no_holes_and_consecutive_ids (reg : EventRegistry)
    (es : List REvent) (hInv : EventRegInv reg) :
    EventRegInv (runAdopts reg es) ∧
    (∀ r : EventRegistry, adoptEvent r none = .error .invalidArgument) ∧
    (∀ r : EventRegistry, ∀ e : REvent, adoptEvent r (some e)
      = .ok (r ++ [some { e with eid := r.length }], r.length)) ∧
    (runAdopts reg es).length = reg.length + es.length ∧
    (∀ j, ∀ hj : j < es.length,
      (runAdopts reg es).getD (reg.length + j) none
        = some { es.get ⟨j, hj⟩ with eid := reg.length + j }) ∧
    (∀ k, k < (runAdopts reg es).length →
      hasEvent (runAdopts reg es) (k : Int) = .ok true ∧
      (∃ e, getEvent (runAdopts reg es) (k : Int) = .ok e ∧ e.eid = k) ∧
      (∃ e, updEvent (runAdopts reg es) (k : Int) = .ok e ∧ e.eid = k)) ∧
    (∀ id : Int, getEvent (runAdopts reg es) id ≠ .error .missing ∧
      updEvent (runAdopts reg es) id ≠ .error .missing) := by
  have hinv' : EventRegInv (runAdopts reg es) := runAdopts_inv hInv es
  refine ⟨hinv', fun r => rfl, fun r e => rfl,
    runAdopts_length reg es, fun j hj => runAdopts_slot reg es j hj,
    ?_, ?_⟩
  · intro k hk
    obtain ⟨e, he, hid⟩ := hinv' k hk
    refine ⟨?_, ⟨e, ?_, hid⟩, ⟨e, ?_, hid⟩⟩
    · rw [hasEvent, if_neg (by simp [idIsValid])]
      congr 1
      rw [Int.toNat_natCast, he]
      simp only [Option.isSome_some, Bool.and_true]
      simp [isIndexInRange]
      omega
    · rw [getEvent, if_neg (by simp [idIsValid]),
        if_neg (by simp [isIndexInRange]; omega)]
      rw [Int.toNat_natCast, he]
    · rw [updEvent, if_neg (by simp [idIsValid]),
        if_neg (by simp [isIndexInRange]; omega)]
      rw [Int.toNat_natCast, he]
  · intro id
    by_cases hv : idIsValid id
    · by_cases hir : isIndexInRange id (runAdopts reg es).length
      · have hlt : id.toNat < (runAdopts reg es).length := by
          simp [isIndexInRange] at hir
          omega
        obtain ⟨e, he, _⟩ := hinv' id.toNat hlt
        constructor
        · rw [getEvent, if_neg (by simp [hv]), if_neg (by simp [hir]), he]
          simp
        · rw [updEvent, if_neg (by simp [hv]), if_neg (by simp [hir]), he]
          simp
      · constructor
        · rw [getEvent, if_neg (by simp [hv]), if_pos (by simp [hir])]
          simp
        · rw [updEvent, if_neg (by simp [hv]), if_pos (by simp [hir])]
          simp
    · constructor
      · rw [getEvent, if_pos (by simp [hv])]
        simp
      · rw [updEvent, if_pos (by simp [hv])]
        simp

/-- Witness for C9: adopting two events into the empty registry gives
slots 0 and 1 holding events with ids 0 and 1. -/
theorem C9_witness :
    (runAdopts [] [⟨10, 99⟩, ⟨20, 99⟩]).length = 0 + 2 ∧
    (runAdopts [] [⟨10, 99⟩, ⟨20, 99⟩]).getD 0 none = some ⟨10, 0⟩ := by
  have h := C9_registry_no_holes_and_consecutive_ids []
    [⟨10, 99⟩, ⟨20, 99⟩]
    (fun i hi => absurd hi (by simp))
  exact ⟨h.2.2.2.1, (h.2.2.2.2.1 0 (by norm_num)).trans (by rfl)⟩

/-! ## Occurrence resolver (`noteEventOccurrence`, lines 849-883) -/

/-- A trigger as the resolver sees it: its identity (modelling the
pointer) and the ordered `EventId` list it causes. -/
structure RTrigger where
  tid : Nat
  eventIds : List Nat
  deriving Repr, DecidableEq

/-- Occupancy view of the event registry used by the resolver's
`hasEvent`/`getEvent` calls: slot `eid` occupied or not.  Trigger-held ids
are adoption-produced, hence non-negative (`Nat`). -/
abbrev OccReg := List Bool

/-- `hasEvent` as the resolver sees it (total on adoption-produced
ids). -/
def hasEvB (reg : OccReg) (eid : Nat) : Bool := reg.getD eid false

/-- The resolver's state: the two append-mode output arrays plus the
mutable occurrence counters of events and triggers (pointer identity of
output entries is modelled by the event id, which determines the registry
object). -/
structure NoteState where
  triggeredEvents : List (Nat × List Nat)
  ignoredEventIds : List Nat
  eventCount : Nat → Nat
  triggerCount : Nat → Nat

/-- Bump a counter map at one key (`noteOccurrence()`). -/
def bump (f : Nat → Nat) (k : Nat) : Nat → Nat :=
  fun i => if i = k then f i + 1 else f i

/-- The linear search `std::find_if` over `appendTriggeredEvents` plus
`e->second.push_back(trigger)`: append `tr` to the causes of the first
entry for `eid`; `none` when no entry exists. -/
def addCause : List (Nat × List Nat) → Nat → Nat → Option (List (Nat × List Nat))
  | [], _, _ => none
  | (e, cs) :: rest, eid, tr =>
    if e = eid then some ((e, cs ++ [tr]) :: rest)
    else match addCause rest eid tr with
      | none => none
      | some rest' => some ((e, cs) :: rest')

/-- Process one caused `EventId` of trigger `tr`: unrecognized ids go to
`ignoredEventIds` with linear de-dup; recognized ids update the existing
entry or append a fresh `(event, [trigger])` entry, bumping the event's
occurrence counter exactly on entry creation. -/
def noteEid (reg : OccReg) (tr : Nat) (st : NoteState) (eid : Nat) :
    NoteState :=
  if hasEvB reg eid then
    match addCause st.triggeredEvents eid tr with
    | some tes => { st with triggeredEvents := tes }
    | none =>
      { st with
          triggeredEvents := st.triggeredEvents ++ [(eid, [tr])],
          eventCount := bump st.eventCount eid }
  else
    if eid ∈ st.ignoredEventIds then st
    else { st with ignoredEventIds := st.ignoredEventIds ++ [eid] }

/-- Process one trigger: bump its occurrence counter, then walk its
caused ids in order. -/
def noteTrigger (reg : OccReg) (st : NoteState) (T : RTrigger) :
    NoteState :=
  T.eventIds.foldl (noteEid reg T.tid)
    { st with triggerCount := bump st.triggerCount T.tid }

/-- `SystemGlobalSubsystem::noteEventOccurrence`: fold over the triggers
the time stepper reports, appending into the output arrays. -/
def noteEventOccurrence (reg : OccReg) (triggers : List RTrigger)
    (st : NoteState) : NoteState :=
  triggers.foldl (noteTrigger reg) st

/-- The claim stream: the `(trigger, causedEventId)` pairs in the exact
order the nested loops visit them. -/
def claimStream (triggers : List RTrigger) : List (Nat × Nat) :=
  triggers.flatMap (fun T => T.eventIds.map (fun e => (T.tid, e)))

/-- Fold of `noteEid` over a claim stream. -/
def procStream (reg : OccReg) (st : NoteState) :
    List (Nat × Nat) → NoteState
  | [] => st
  | (tr, eid) :: ps => procStream reg (noteEid reg tr st eid) ps

/-- Keys (event ids) of the output entries, in order. -/
def keysOf (tes : List (Nat × List Nat)) : List Nat := tes.map Prod.fst

/-- First-match lookup of an event's cause list (`[]` when absent). -/
def causesOf : List (Nat × List Nat) → Nat → List Nat
  | [], _ => []
  | (e, cs) :: rest, eid => if e = eid then cs else causesOf rest eid

/-- The recognized event ids of a claim stream in first-seen order,
skipping those already in `ks`. -/
def freshKeys (reg : OccReg) : List Nat → List (Nat × Nat) → List Nat
  | _, [] => []
  | ks, (_, e) :: ps =>
    if hasEvB reg e ∧ e ∉ ks then e :: freshKeys reg (ks ++ [e]) ps
    else freshKeys reg ks ps

/-- The unrecognized event ids of a claim stream in first-seen order,
skipping those already in `igs`. -/
def freshIgnored (reg : OccReg) : List Nat → List (Nat × Nat) → List Nat
  | _, [] => []
  | igs, (_, e) :: ps =>
    if ¬ hasEvB reg e ∧ e ∉ igs then e :: freshIgnored reg (igs ++ [e]) ps
    else freshIgnored reg igs ps

lemma addCause_cons_self (e : Nat) (cs : List Nat)
    (rest : List (Nat × List Nat)) (tr : Nat) :
    addCause ((e, cs) :: rest) e tr = some ((e, cs ++ [tr]) :: rest) := by
  simp [addCause]

lemma addCause_cons_ne (e : Nat) (cs : List Nat)
    (rest : List (Nat × List Nat)) (eid tr : Nat) (he : e ≠ eid) :
    addCause ((e, cs) :: rest) eid tr
      = match addCause rest eid tr with
        | none => none
        | some rest' => some ((e, cs) :: rest') := by
  simp [addCause, he]

lemma addCause_none_iff (tes : List (Nat × List Nat)) (eid tr : Nat) :
    addCause tes eid tr = none ↔ eid ∉ keysOf tes := by
  induction tes with
  | nil => simp [addCause, keysOf]
  | cons p rest ih =>
    match p with
    | (e, cs) =>
      by_cases he : e = eid
      · subst he
        rw [addCause_cons_self]
        simp only [keysOf, List.map_cons, List.mem_cons, not_or]
        exact ⟨fun h => Option.noConfusion h,
          fun h => absurd trivial h.1⟩
      · rw [addCause_cons_ne e cs rest eid tr he]
        rcases hrec : addCause rest eid tr with _ | rest'
        · constructor
          · intro _
            simp only [keysOf, List.map_cons, List.mem_cons, not_or]
            exact ⟨fun hh => he hh.symm, ih.mp hrec⟩
          · intro _
            rfl
        · have hmem : eid ∈ keysOf rest := by
            by_contra hno
            rw [ih.mpr hno] at hrec
            cases hrec
          constructor
          · intro hcon
            cases hcon
          · intro hno
            exact absurd (List.mem_cons_of_mem _ hmem) hno

lemma addCause_keys (tes : List (Nat × List Nat)) (eid tr : Nat)
    (tes' : List (Nat × List Nat)) (h : addCause tes eid tr = some tes') :
    keysOf tes' = keysOf tes := by
  induction tes generalizing tes' with
  | nil => cases h
  | cons p rest ih =>
    match p with
    | (e, cs) =>
      by_cases he : e = eid
      · subst he
        rw [addCause_cons_self] at h
        cases Option.some.inj h
        rfl
      · rw [addCause_cons_ne e cs rest eid tr he] at h
        rcases hrec : addCause rest eid tr with _ | rest' <;> rw [hrec] at h
        · cases h
        · cases Option.some.inj h
          simp only [keysOf, List.map_cons]
          rw [show List.map Prod.fst rest' = keysOf rest' from rfl,
            ih rest' hrec]
          rfl

lemma addCause_causesOf_eq (tes : List (Nat × List Nat)) (eid tr : Nat)
    (tes' : List (Nat × List Nat)) (h : addCause tes eid tr = some tes') :
    causesOf tes' eid = causesOf tes eid ++ [tr] := by
  induction tes generalizing tes' with
  | nil => cases h
  | cons p rest ih =>
    match p with
    | (e, cs) =>
      by_cases he : e = eid
      · subst he
        rw [addCause_cons_self] at h
        cases Option.some.inj h
        simp [causesOf]
      · rw [addCause_cons_ne e cs rest eid tr he] at h
        rcases hrec : addCause rest eid tr with _ | rest' <;> rw [hrec] at h
        · cases h
        · cases Option.some.inj h
          simp only [causesOf, if_neg he]
          exact ih rest' hrec

lemma addCause_causesOf_ne (tes : List (Nat × List Nat)) (eid tr : Nat)
    (tes' : List (Nat × List Nat)) (h : addCause tes eid tr = some tes')
    (e' : Nat) (hne : e' ≠ eid) :
    causesOf tes' e' = causesOf tes e' := by
  induction tes generalizing tes' with
  | nil => cases h
  | cons p rest ih =>
    match p with
    | (e, cs) =>
      by_cases he : e = eid
      · subst he
        rw [addCause_cons_self] at h
        cases Option.some.inj h
        have hne' : ¬ e = e' := fun hh => hne hh.symm
        simp [causesOf, hne']
      · rw [addCause_cons_ne e cs rest eid tr he] at h
        rcases hrec : addCause rest eid tr with _ | rest' <;> rw [hrec] at h
        · cases h
        · cases Option.some.inj h
          simp only [causesOf]
          by_cases he' : e = e'
          · simp [he']
          · simp only [if_neg he']
            exact ih rest' hrec

lemma causesOf_absent (tes : List (Nat × List Nat)) (eid : Nat)
    (h : eid ∉ keysOf tes) : causesOf tes eid = [] := by
  induction tes with
  | nil => rfl
  | cons p rest ih =>
    match p with
    | (e, cs) =>
      simp only [keysOf, List.map_cons, List.mem_cons, not_or] at h
      rw [show causesOf ((e, cs) :: rest) eid
          = if e = eid then cs else causesOf rest eid from rfl,
        if_neg (fun hh : e = eid => h.1 hh.symm)]
      exact ih h.2

lemma causesOf_append_new (tes : List (Nat × List Nat)) (eid tr e' : Nat) :
    causesOf (tes ++ [(eid, [tr])]) e'
      = if e' ∈ keysOf tes then causesOf tes e'
        else if e' = eid then [tr] else [] := by
  induction tes with
  | nil =>
    rw [List.nil_append,
      show causesOf [(eid, [tr])] e'
        = if eid = e' then [tr] else causesOf [] e' from rfl,
      if_neg (show ¬ e' ∈ keysOf ([] : List (Nat × List Nat)) by
        simp [keysOf])]
    by_cases he : eid = e'
    · rw [if_pos he, if_pos he.symm]
    · rw [if_neg he, if_neg (fun hh : e' = eid => he hh.symm)]
      rfl
  | cons p rest ih =>
    match p with
    | (e, cs) =>
      rw [show ((e, cs) :: rest) ++ [(eid, [tr])]
          = (e, cs) :: (rest ++ [(eid, [tr])]) from rfl,
        show causesOf ((e, cs) :: (rest ++ [(eid, [tr])])) e'
          = if e = e' then cs else causesOf (rest ++ [(eid, [tr])]) e'
          from rfl]
      by_cases he : e = e'
      · rw [if_pos he,
          if_pos (show e' ∈ keysOf ((e, cs) :: rest) from he ▸
            List.mem_cons_self _ _),
          show causesOf ((e, cs) :: rest) e'
            = if e = e' then cs else causesOf rest e' from rfl,
          if_pos he]
      · have hker : (e' ∈ keysOf ((e, cs) :: rest)) ↔ (e' ∈ keysOf rest) := by
          simp only [keysOf, List.map_cons, List.mem_cons]
          exact ⟨fun h => h.resolve_left (fun hh => he hh.symm),
            fun h => Or.inr h⟩
        rw [if_neg he, ih]
        by_cases hmem : e' ∈ keysOf rest
        · rw [if_pos hmem, if_pos (hker.mpr hmem),
            show causesOf ((e, cs) :: rest) e'
              = if e = e' then cs else causesOf rest e' from rfl,
            if_neg he]
        · rw [if_neg hmem, if_neg (fun hh => hmem (hker.mp hh))]

lemma keysOf_append (l₁ l₂ : List (Nat × List Nat)) :
    keysOf (l₁ ++ l₂) = keysOf l₁ ++ keysOf l₂ := by
  simp [keysOf]

lemma noteEid_keys (reg : OccReg) (tr : Nat) (st : NoteState) (eid : Nat) :
    keysOf (noteEid reg tr st eid).triggeredEvents
      = if hasEvB reg eid ∧ eid ∉ keysOf st.triggeredEvents
        then keysOf st.triggeredEvents ++ [eid]
        else keysOf st.triggeredEvents := by
  by_cases h : hasEvB reg eid
  · simp only [noteEid, if_pos h]
    rcases hadd : addCause st.triggeredEvents eid tr with _ | tes'
    · have hmem := (addCause_none_iff st.triggeredEvents eid tr).mp hadd
      rw [if_pos ⟨h, hmem⟩]
      simp [keysOf_append, keysOf]
    · have hmem : eid ∈ keysOf st.triggeredEvents := by
        by_contra hno
        rw [(addCause_none_iff st.triggeredEvents eid tr).mpr hno] at hadd
        cases hadd
      have hrhs : ¬ (hasEvB reg eid = true
          ∧ eid ∉ keysOf st.triggeredEvents) := fun hc => hc.2 hmem
      rw [if_neg hrhs]
      exact addCause_keys _ _ _ _ hadd
  · have hrhs : ¬ (hasEvB reg eid = true
        ∧ eid ∉ keysOf st.triggeredEvents) := fun hc => h hc.1
    simp only [noteEid, if_neg h]
    by_cases hig : eid ∈ st.ignoredEventIds
    · rw [if_pos hig, if_neg hrhs]
    · rw [if_neg hig, if_neg hrhs]

lemma noteEid_ignored (reg : OccReg) (tr : Nat) (st : NoteState)
    (eid : Nat) :
    (noteEid reg tr st eid).ignoredEventIds
      = if ¬ hasEvB reg eid ∧ eid ∉ st.ignoredEventIds
        then st.ignoredEventIds ++ [eid]
        else st.ignoredEventIds := by
  have hcond : (¬ hasEvB reg eid = true ∧ eid ∉ st.ignoredEventIds)
      ∨ ¬ (¬ hasEvB reg eid = true ∧ eid ∉ st.ignoredEventIds) :=
    Classical.em _
  by_cases h : hasEvB reg eid
  · have hrhs : ¬ (¬ hasEvB reg eid = true
        ∧ eid ∉ st.ignoredEventIds) := fun hc => hc.1 h
    simp only [noteEid, if_pos h]
    rw [if_neg hrhs]
    rcases hadd : addCause st.triggeredEvents eid tr with _ | tes' <;> rfl
  · simp only [noteEid, if_neg h]
    by_cases hig : eid ∈ st.ignoredEventIds
    · have hrhs : ¬ (¬ hasEvB reg eid = true
          ∧ eid ∉ st.ignoredEventIds) := fun hc => hc.2 hig
      rw [if_pos hig, if_neg hrhs]
    · rw [if_neg hig, if_pos ⟨h, hig⟩]

lemma noteEid_causes (reg : OccReg) (tr : Nat) (st : NoteState)
    (eid e : Nat) (he : hasEvB reg e = true) :
    causesOf (noteEid reg tr st eid).triggeredEvents e
      = causesOf st.triggeredEvents e
        ++ (if eid = e then [tr] else []) := by
  by_cases h : hasEvB reg eid
  · simp only [noteEid, if_pos h]
    rcases hadd : addCause st.triggeredEvents eid tr with _ | tes'
    · have hmem := (addCause_none_iff st.triggeredEvents eid tr).mp hadd
      dsimp only
      rw [causesOf_append_new]
      by_cases hee : e = eid
      · subst hee
        rw [if_neg hmem]
        simp [causesOf_absent _ _ hmem]
      · have hee' : ¬ (eid = e) := fun hh => hee hh.symm
        rw [if_neg hee', List.append_nil]
        by_cases hk : e ∈ keysOf st.triggeredEvents
        · rw [if_pos hk]
        · rw [if_neg hk, if_neg hee, causesOf_absent _ _ hk]
    · dsimp only
      by_cases hee : eid = e
      · subst hee
        rw [if_pos rfl]
        exact addCause_causesOf_eq _ _ _ _ hadd
      · rw [if_neg hee, List.append_nil]
        exact addCause_causesOf_ne _ _ _ _ hadd e
          (fun hh => hee hh.symm)
  · have hne : ¬ (eid = e) := fun hh => h (hh ▸ he)
    simp only [noteEid, if_neg h]
    rw [if_neg hne, List.append_nil]
    by_cases hig : eid ∈ st.ignoredEventIds
    · rw [if_pos hig]
    · rw [if_neg hig]

lemma noteEid_evCount (reg : OccReg) (tr : Nat) (st : NoteState)
    (eid e : Nat) :
    (noteEid reg tr st eid).eventCount e
      = st.eventCount e
        + (if hasEvB reg eid ∧ e = eid ∧ eid ∉ keysOf st.triggeredEvents
           then 1 else 0) := by
  by_cases h : hasEvB reg eid
  · simp only [noteEid, if_pos h]
    rcases hadd : addCause st.triggeredEvents eid tr with _ | tes'
    · have hmem := (addCause_none_iff st.triggeredEvents eid tr).mp hadd
      dsimp only [bump]
      by_cases hee : e = eid
      · rw [if_pos hee, if_pos ⟨h, hee, hmem⟩]
      · have hrhs : ¬ (hasEvB reg eid = true ∧ e = eid
            ∧ eid ∉ keysOf st.triggeredEvents) := fun hc => hee hc.2.1
        rw [if_neg hee, if_neg hrhs]
        rfl
    · have hmem : eid ∈ keysOf st.triggeredEvents := by
        by_contra hno
        rw [(addCause_none_iff st.triggeredEvents eid tr).mpr hno] at hadd
        cases hadd
      have hrhs : ¬ (hasEvB reg eid = true ∧ e = eid
          ∧ eid ∉ keysOf st.triggeredEvents) := fun hc => hc.2.2 hmem
      rw [if_neg hrhs]
      rfl
  · have hrhs : ¬ (hasEvB reg eid = true ∧ e = eid
        ∧ eid ∉ keysOf st.triggeredEvents) := fun hc => h hc.1
    simp only [noteEid, if_neg h]
    by_cases hig : eid ∈ st.ignoredEventIds
    · rw [if_pos hig, if_neg hrhs]
      rfl
    · rw [if_neg hig, if_neg hrhs]
      rfl

lemma noteEid_trigCount (reg : OccReg) (tr : Nat) (st : NoteState)
    (eid : Nat) :
    (noteEid reg tr st eid).triggerCount = st.triggerCount := by
  by_cases h : hasEvB reg eid
  · simp only [noteEid, if_pos h]
    rcases hadd : addCause st.triggeredEvents eid tr with _ | tes' <;> rfl
  · simp only [noteEid, if_neg h]
    by_cases hig : eid ∈ st.ignoredEventIds
    · rw [if_pos hig]
    · rw [if_neg hig]

lemma procStream_keys (reg : OccReg) (ps : List (Nat × Nat))
    (st : NoteState) :
    keysOf (procStream reg st ps).triggeredEvents
      = keysOf st.triggeredEvents
        ++ freshKeys reg (keysOf st.triggeredEvents) ps := by
  induction ps generalizing st with
  | nil => simp [procStream, freshKeys]
  | cons p ps ih =>
    match p with
    | (tr, e₀) =>
      rw [show procStream reg st ((tr, e₀) :: ps)
          = procStream reg (noteEid reg tr st e₀) ps from rfl,
        ih, noteEid_keys]
      by_cases hc : hasEvB reg e₀ = true
          ∧ e₀ ∉ keysOf st.triggeredEvents
      · rw [if_pos hc,
          show freshKeys reg (keysOf st.triggeredEvents) ((tr, e₀) :: ps)
            = e₀ :: freshKeys reg (keysOf st.triggeredEvents ++ [e₀]) ps
            from by rw [freshKeys, if_pos hc]]
        simp
      · rw [if_neg hc,
          show freshKeys reg (keysOf st.triggeredEvents) ((tr, e₀) :: ps)
            = freshKeys reg (keysOf st.triggeredEvents) ps
            from by rw [freshKeys, if_neg hc]]

lemma procStream_ignored (reg : OccReg) (ps : List (Nat × Nat))
    (st : NoteState) :
    (procStream reg st ps).ignoredEventIds
      = st.ignoredEventIds
        ++ freshIgnored reg st.ignoredEventIds ps := by
  induction ps generalizing st with
  | nil => simp [procStream, freshIgnored]
  | cons p ps ih =>
    match p with
    | (tr, e₀) =>
      rw [show procStream reg st ((tr, e₀) :: ps)
          = procStream reg (noteEid reg tr st e₀) ps from rfl,
        ih, noteEid_ignored]
      by_cases hc : ¬ hasEvB reg e₀ = true ∧ e₀ ∉ st.ignoredEventIds
      · rw [if_pos hc,
          show freshIgnored reg st.ignoredEventIds ((tr, e₀) :: ps)
            = e₀ :: freshIgnored reg (st.ignoredEventIds ++ [e₀]) ps
            from by rw [freshIgnored, if_pos hc]]
        simp
      · rw [if_neg hc,
          show freshIgnored reg st.ignoredEventIds ((tr, e₀) :: ps)
            = freshIgnored reg st.ignoredEventIds ps
            from by rw [freshIgnored, if_neg hc]]

lemma procStream_causes (reg : OccReg) (ps : List (Nat × Nat))
    (st : NoteState) (e : Nat) (he : hasEvB reg e = true) :
    causesOf (procStream reg st ps).triggeredEvents e
      = causesOf st.triggeredEvents e
        ++ (ps.filter (fun p => p.2 = e)).map Prod.fst := by
  induction ps generalizing st with
  | nil => simp [procStream]
  | cons p ps ih =>
    match p with
    | (tr, e₀) =>
      rw [show procStream reg st ((tr, e₀) :: ps)
          = procStream reg (noteEid reg tr st e₀) ps from rfl,
        ih, noteEid_causes reg tr st e₀ e he, List.filter_cons]
      by_cases hee : e₀ = e
      · rw [if_pos (by simpa using hee),
          if_pos (show decide ((tr, e₀).2 = e) = true by simpa using hee)]
        simp
      · rw [if_neg (by simpa using hee),
          if_neg (show ¬ decide ((tr, e₀).2 = e) = true by
            simpa using hee)]
        simp

lemma procStream_evCount (reg : OccReg) (ps : List (Nat × Nat))
    (st : NoteState) (e : Nat) :
    (procStream reg st ps).eventCount e
      = st.eventCount e
        + (if hasEvB reg e ∧ e ∉ keysOf st.triggeredEvents
              ∧ e ∈ ps.map Prod.snd
           then 1 else 0) := by
  induction ps generalizing st with
  | nil => simp [procStream]
  | cons p ps ih =>
    match p with
    | (tr, e₀) =>
      rw [show procStream reg st ((tr, e₀) :: ps)
          = procStream reg (noteEid reg tr st e₀) ps from rfl, ih]
      simp only [noteEid_evCount, noteEid_keys, List.map_cons,
        List.mem_cons]
      by_cases hee : e = e₀
      · subst hee
        by_cases hA : hasEvB reg e = true
        · by_cases hK : e ∈ keysOf st.triggeredEvents
          · have h2 : (if hasEvB reg e ∧ e ∉ keysOf st.triggeredEvents
                then keysOf st.triggeredEvents ++ [e]
                else keysOf st.triggeredEvents)
                = keysOf st.triggeredEvents :=
              if_neg (fun hc => hc.2 hK)
            simp only [h2]
            simp [hK]
          · have h2 : (if hasEvB reg e ∧ e ∉ keysOf st.triggeredEvents
                then keysOf st.triggeredEvents ++ [e]
                else keysOf st.triggeredEvents)
                = keysOf st.triggeredEvents ++ [e] :=
              if_pos ⟨hA, hK⟩
            simp only [h2]
            simp [hA, hK]
        · have h2 : (if hasEvB reg e ∧ e ∉ keysOf st.triggeredEvents
              then keysOf st.triggeredEvents ++ [e]
              else keysOf st.triggeredEvents)
              = keysOf st.triggeredEvents :=
            if_neg (fun hc => hA hc.1)
          simp only [h2]
          simp [hA]
      · have haddX : ¬ (hasEvB reg e₀ = true ∧ e = e₀
            ∧ e₀ ∉ keysOf st.triggeredEvents) := fun hc => hee hc.2.1
        rw [if_neg haddX]
        have hmemiff : (e ∈ (if hasEvB reg e₀
              ∧ e₀ ∉ keysOf st.triggeredEvents
            then keysOf st.triggeredEvents ++ [e₀]
            else keysOf st.triggeredEvents))
            ↔ e ∈ keysOf st.triggeredEvents := by
          by_cases hc : hasEvB reg e₀ = true
              ∧ e₀ ∉ keysOf st.triggeredEvents
          · rw [if_pos hc]
            simp [hee]
          · rw [if_neg hc]
        have hcond : (hasEvB reg e = true
            ∧ e ∉ (if hasEvB reg e₀ ∧ e₀ ∉ keysOf st.triggeredEvents
                then keysOf st.triggeredEvents ++ [e₀]
                else keysOf st.triggeredEvents)
            ∧ e ∈ ps.map Prod.snd)
            ↔ (hasEvB reg e = true ∧ e ∉ keysOf st.triggeredEvents
               ∧ (e = e₀ ∨ e ∈ ps.map Prod.snd)) := by
          constructor
          · rintro ⟨a, b, c⟩
            exact ⟨a, fun hk => b (hmemiff.mpr hk), Or.inr c⟩
          · rintro ⟨a, b, c⟩
            exact ⟨a, fun hk => b (hmemiff.mp hk), c.resolve_left hee⟩
        rw [if_congr hcond rfl rfl, Nat.add_zero]

lemma procStream_trigCount (reg : OccReg) (ps : List (Nat × Nat))
    (st : NoteState) :
    (procStream reg st ps).triggerCount = st.triggerCount := by
  induction ps generalizing st with
  | nil => rfl
  | cons p ps ih =>
    match p with
    | (tr, e₀) =>
      rw [show procStream reg st ((tr, e₀) :: ps)
          = procStream reg (noteEid reg tr st e₀) ps from rfl, ih,
        noteEid_trigCount]

/-- Repeated counter bumps, one per trigger in order. -/
def bumpAll (f : Nat → Nat) : List Nat → (Nat → Nat)
  | [] => f
  | t :: ts => bumpAll (bump f t) ts

lemma bumpAll_apply (f : Nat → Nat) (ts : List Nat) (k : Nat) :
    bumpAll f ts k = f k + ts.count k := by
  induction ts generalizing f with
  | nil => simp [bumpAll]
  | cons t ts ih =>
    rw [bumpAll, ih]
    by_cases h : k = t
    · subst h
      simp [bump, List.count_cons]
      omega
    · simp [bump, h, List.count_cons, fun hh : t = k => h hh.symm]

lemma noteEid_setTrig (reg : OccReg) (tr : Nat) (g : Nat → Nat)
    (st : NoteState) (eid : Nat) :
    noteEid reg tr { st with triggerCount := g } eid
      = { noteEid reg tr st eid with triggerCount := g } := by
  by_cases h : hasEvB reg eid
  · simp only [noteEid, if_pos h]
    rcases hadd : addCause st.triggeredEvents eid tr with _ | tes' <;>
      simp [hadd]
  · simp only [noteEid, if_neg h]
    by_cases hig : eid ∈ st.ignoredEventIds <;> simp [hig]

lemma procStream_setTrig (reg : OccReg) (g : Nat → Nat)
    (ps : List (Nat × Nat)) (st : NoteState) :
    procStream reg { st with triggerCount := g } ps
      = { procStream reg st ps with triggerCount := g } := by
  induction ps generalizing st with
  | nil => rfl
  | cons p ps ih =>
    match p with
    | (tr, e₀) =>
      rw [show procStream reg { st with triggerCount := g } ((tr, e₀) :: ps)
          = procStream reg (noteEid reg tr { st with triggerCount := g } e₀)
              ps from rfl,
        noteEid_setTrig, ih]
      rfl

lemma procStream_append (reg : OccReg) (l₁ l₂ : List (Nat × Nat))
    (st : NoteState) :
    procStream reg st (l₁ ++ l₂)
      = procStream reg (procStream reg st l₁) l₂ := by
  induction l₁ generalizing st with
  | nil => rfl
  | cons p l₁ ih =>
    match p with
    | (tr, e₀) =>
      rw [show ((tr, e₀) :: l₁) ++ l₂ = (tr, e₀) :: (l₁ ++ l₂) from rfl,
        show procStream reg st ((tr, e₀) :: (l₁ ++ l₂))
          = procStream reg (noteEid reg tr st e₀) (l₁ ++ l₂) from rfl,
        ih]
      rfl

lemma foldl_noteEid_eq_procStream (reg : OccReg) (tr : Nat)
    (l : List Nat) (st : NoteState) :
    l.foldl (noteEid reg tr) st
      = procStream reg st (l.map (fun e => (tr, e))) := by
  induction l generalizing st with
  | nil => rfl
  | cons e l ih =>
    rw [List.foldl_cons, ih]
    rfl

lemma noteEventOccurrence_eq_procStream (reg : OccReg)
    (trs : List RTrigger) (st : NoteState) :
    noteEventOccurrence reg trs st
      = { procStream reg st (claimStream trs) with
          triggerCount := bumpAll st.triggerCount (trs.map (·.tid)) } := by
  induction trs generalizing st with
  | nil =>
    rw [show noteEventOccurrence reg [] st = st from rfl]
    rfl
  | cons T trs ih =>
    rw [show noteEventOccurrence reg (T :: trs) st
        = noteEventOccurrence reg trs (noteTrigger reg st T) from rfl, ih]
    rw [show noteTrigger reg st T
        = T.eventIds.foldl (noteEid reg T.tid)
            { st with triggerCount := bump st.triggerCount T.tid }
        from rfl,
      foldl_noteEid_eq_procStream]
    rw [show claimStream (T :: trs)
        = T.eventIds.map (fun e => (T.tid, e)) ++ claimStream trs
        from rfl,
      procStream_append]
    simp only [procStream_setTrig, procStream_trigCount, List.map_cons]
    rfl

lemma freshKeys_mem (reg : OccReg) (ks : List Nat)
    (ps : List (Nat × Nat)) (e : Nat) (h : e ∈ freshKeys reg ks ps) :
    hasEvB reg e = true ∧ e ∉ ks ∧ e ∈ ps.map Prod.snd := by
  induction ps generalizing ks with
  | nil => cases h
  | cons p ps ih =>
    match p with
    | (t, e₀) =>
      by_cases hc : hasEvB reg e₀ = true ∧ e₀ ∉ ks
      · rw [freshKeys, if_pos hc] at h
        rcases List.mem_cons.mp h with rfl | h'
        · exact ⟨hc.1, hc.2, by simp⟩
        · obtain ⟨h1, h2, h3⟩ := ih (ks ++ [e₀]) h'
          exact ⟨h1, fun hk => h2 (List.mem_append_left _ hk),
            by simp [h3]⟩
      · rw [freshKeys, if_neg hc] at h
        obtain ⟨h1, h2, h3⟩ := ih ks h
        exact ⟨h1, h2, by simp [h3]⟩

lemma freshKeys_nodup (reg : OccReg) (ks : List Nat)
    (ps : List (Nat × Nat)) : (freshKeys reg ks ps).Nodup := by
  induction ps generalizing ks with
  | nil => exact List.nodup_nil
  | cons p ps ih =>
    match p with
    | (t, e₀) =>
      by_cases hc : hasEvB reg e₀ = true ∧ e₀ ∉ ks
      · rw [freshKeys, if_pos hc]
        refine List.nodup_cons.mpr ⟨?_, ih (ks ++ [e₀])⟩
        intro hmem
        exact (freshKeys_mem reg (ks ++ [e₀]) ps e₀ hmem).2.1
          (List.mem_append_right _ (List.mem_singleton_self _))
      · rw [freshKeys, if_neg hc]
        exact ih ks

lemma freshKeys_complete (reg : OccReg) (ks : List Nat)
    (ps : List (Nat × Nat)) (e : Nat) (he : hasEvB reg e = true)
    (hmem : e ∈ ps.map Prod.snd) :
    e ∈ ks ∨ e ∈ freshKeys reg ks ps := by
  induction ps generalizing ks with
  | nil => cases hmem
  | cons p ps ih =>
    match p with
    | (t, e₀) =>
      by_cases hc : hasEvB reg e₀ = true ∧ e₀ ∉ ks
      · rw [freshKeys, if_pos hc]
        have hmem' : e = e₀ ∨ e ∈ ps.map Prod.snd := by
          rw [List.map_cons] at hmem
          exact List.mem_cons.mp hmem
        rcases hmem' with rfl | h'
        · exact Or.inr (List.mem_cons_self _ _)
        · rcases ih (ks ++ [e₀]) h' with hk | hf
          · rcases List.mem_append.mp hk with hk' | hk'
            · exact Or.inl hk'
            · exact Or.inr (by
                rw [List.mem_singleton.mp hk']
                exact List.mem_cons_self _ _)
          · exact Or.inr (List.mem_cons_of_mem _ hf)
      · rw [freshKeys, if_neg hc]
        have hmem' : e = e₀ ∨ e ∈ ps.map Prod.snd := by
          rw [List.map_cons] at hmem
          exact List.mem_cons.mp hmem
        rcases hmem' with rfl | h'
        · rcases Decidable.em (e ∈ ks) with hk | hk
          · exact Or.inl hk
          · exact absurd ⟨he, hk⟩ hc
        · exact ih ks h'

lemma freshIgnored_mem (reg : OccReg) (igs : List Nat)
    (ps : List (Nat × Nat)) (e : Nat)
    (h : e ∈ freshIgnored reg igs ps) :
    ¬ hasEvB reg e = true ∧ e ∉ igs ∧ e ∈ ps.map Prod.snd := by
  induction ps generalizing igs with
  | nil => cases h
  | cons p ps ih =>
    match p with
    | (t, e₀) =>
      by_cases hc : ¬ hasEvB reg e₀ = true ∧ e₀ ∉ igs
      · rw [freshIgnored, if_pos hc] at h
        rcases List.mem_cons.mp h with rfl | h'
        · exact ⟨hc.1, hc.2, by simp⟩
        · obtain ⟨h1, h2, h3⟩ := ih (igs ++ [e₀]) h'
          exact ⟨h1, fun hk => h2 (List.mem_append_left _ hk),
            by simp [h3]⟩
      · rw [freshIgnored, if_neg hc] at h
        obtain ⟨h1, h2, h3⟩ := ih igs h
        exact ⟨h1, h2, by simp [h3]⟩

lemma freshIgnored_nodup (reg : OccReg) (igs : List Nat)
    (ps : List (Nat × Nat)) : (freshIgnored reg igs ps).Nodup := by
  induction ps generalizing igs with
  | nil => exact List.nodup_nil
  | cons p ps ih =>
    match p with
    | (t, e₀) =>
      by_cases hc : ¬ hasEvB reg e₀ = true ∧ e₀ ∉ igs
      · rw [freshIgnored, if_pos hc]
        refine List.nodup_cons.mpr ⟨?_, ih (igs ++ [e₀])⟩
        intro hmem
        exact (freshIgnored_mem reg (igs ++ [e₀]) ps e₀ hmem).2.1
          (List.mem_append_right _ (List.mem_singleton_self _))
      · rw [freshIgnored, if_neg hc]
        exact ih igs

lemma freshIgnored_complete (reg : OccReg) (igs : List Nat)
    (ps : List (Nat × Nat)) (e : Nat) (he : ¬ hasEvB reg e = true)
    (hmem : e ∈ ps.map Prod.snd) :
    e ∈ igs ∨ e ∈ freshIgnored reg igs ps := by
  induction ps generalizing igs with
  | nil => cases hmem
  | cons p ps ih =>
    match p with
    | (t, e₀) =>
      by_cases hc : ¬ hasEvB reg e₀ = true ∧ e₀ ∉ igs
      · rw [freshIgnored, if_pos hc]
        have hmem' : e = e₀ ∨ e ∈ ps.map Prod.snd := by
          rw [List.map_cons] at hmem
          exact List.mem_cons.mp hmem
        rcases hmem' with rfl | h'
        · exact Or.inr (List.mem_cons_self _ _)
        · rcases ih (igs ++ [e₀]) h' with hk | hf
          · rcases List.mem_append.mp hk with hk' | hk'
            · exact Or.inl hk'
            · exact Or.inr (by
                rw [List.mem_singleton.mp hk']
                exact List.mem_cons_self _ _)
          · exact Or.inr (List.mem_cons_of_mem _ hf)
      · rw [freshIgnored, if_neg hc]
        have hmem' : e = e₀ ∨ e ∈ ps.map Prod.snd := by
          rw [List.map_cons] at hmem
          exact List.mem_cons.mp hmem
        rcases hmem' with rfl | h'
        · rcases Decidable.em (e ∈ igs) with hk | hk
          · exact Or.inl hk
          · exact absurd ⟨he, hk⟩ hc
        · exact ih igs h'

lemma filter_eq_of_nodup (l : List Nat) (e : Nat) (h : l.Nodup) :
    l.filter (fun x => x = e) = if e ∈ l then [e] else [] := by
  induction l with
  | nil => simp
  | cons a l ih =>
    obtain ⟨hnot, hnd⟩ := List.nodup_cons.mp h
    rw [List.filter_cons]
    by_cases hae : a = e
    · subst hae
      rw [if_pos (by simp), if_pos (List.mem_cons_self _ _), ih hnd,
        if_neg hnot]
    · rw [if_neg (by simpa using hae), ih hnd]
      have : (e ∈ a :: l) ↔ (e ∈ l) := by
        simp only [List.mem_cons]
        exact ⟨fun h' => h'.resolve_left (fun hh => hae hh.symm),
          fun h' => Or.inr h'⟩
      by_cases hm : e ∈ l
      · rw [if_pos hm, if_pos (this.mpr hm)]
      · rw [if_neg hm, if_neg (fun hh => hm (this.mp hh))]

lemma map_pair_filter (t : Nat) (l : List Nat) (e : Nat) :
    ((l.map (fun x => (t, x))).filter (fun p => p.2 = e)).map Prod.fst
      = (l.filter (fun x => x = e)).map (fun _ => t) := by
  induction l with
  | nil => rfl
  | cons x l ih =>
    rw [List.map_cons, List.filter_cons, List.filter_cons]
    by_cases hx : x = e
    · rw [if_pos (by simpa using hx), if_pos (by simpa using hx),
        List.map_cons, List.map_cons, ih]
    · rw [if_neg (by simpa using hx), if_neg (by simpa using hx), ih]

lemma claimStream_filter (trs : List RTrigger) (e : Nat)
    (h : ∀ T ∈ trs, T.eventIds.Nodup) :
    ((claimStream trs).filter (fun p => p.2 = e)).map Prod.fst
      = (trs.filter (fun T => e ∈ T.eventIds)).map RTrigger.tid := by
  induction trs with
  | nil => rfl
  | cons T trs ih =>
    rw [show claimStream (T :: trs)
        = T.eventIds.map (fun x => (T.tid, x)) ++ claimStream trs
        from rfl,
      List.filter_append, List.map_append, map_pair_filter,
      filter_eq_of_nodup _ _ (h T (List.mem_cons_self _ _)),
      ih (fun T' hT' => h T' (List.mem_cons_of_mem _ hT')),
      List.filter_cons]
    by_cases hm : e ∈ T.eventIds
    · rw [if_pos hm, if_pos (by simpa using hm), List.map_cons]
      rfl
    · rw [if_neg hm, if_neg (by simpa using hm)]
      rfl

lemma claimStream_snd_mem (trs : List RTrigger) (e : Nat) :
    e ∈ (claimStream trs).map Prod.snd ↔ ∃ T ∈ trs, e ∈ T.eventIds := by
  simp only [claimStream, List.map_flatMap, List.mem_flatMap]
  constructor
  · rintro ⟨T, hT, he⟩
    refine ⟨T, hT, ?_⟩
    simpa using he
  · rintro ⟨T, hT, he⟩
    refine ⟨T, hT, ?_⟩
    simpa using he

/-- Counterexample to claim C2: a single trigger (tid 7) that lists the
same recognized EventId twice gets appended to that event's causes once
per claim, so the entry is `(0, [7, 7])`, not `(0, [7])` — the output is
not "the list of all triggers that claimed it" when a trigger's caused-id
list has duplicates, even though the input triggers are distinct. -/
theorem C2_counterexample_duplicate_claims :
    (noteEventOccurrence [true] [⟨7, [0, 0]⟩]
        ⟨[], [], fun _ => 0, fun _ => 0⟩).triggeredEvents
      = [(0, [7, 7])] ∧
    ¬ ((noteEventOccurrence [true] [⟨7, [0, 0]⟩]
        ⟨[], [], fun _ => 0, fun _ => 0⟩).triggeredEvents
      = [(0, [7])]) := by
  constructor
  · rfl
  · intro h
    have h2 : ([(0, [7, 7])] : List (Nat × List Nat)) = [(0, [7])] :=
      (rfl : (noteEventOccurrence [true] [⟨7, [0, 0]⟩]
        ⟨[], [], fun _ => 0, fun _ => 0⟩).triggeredEvents
          = [(0, [7, 7])]).symm.trans h
    simp at h2

/-- Claim C2 as amended: for a call with distinct triggers, each of whose
caused-event lists is duplicate-free, and initially empty output arrays:
each input trigger's counter is bumped exactly once; the output events are
exactly the recognized claimed ids, each exactly once, in first-seen
order, paired with precisely the triggers that claimed them in input
order, with the event counter bumped exactly once; unrecognized claimed
ids go to `ignoredEventIds` exactly once each, in first-seen order, and
get no triggered-event entry. -/
theorem C2_amended_resolver (reg : OccReg) (trs : List RTrigger)
    (ec tc : Nat → Nat)
    (hdist : (trs.map RTrigger.tid).Nodup)
    (hnd : ∀ T ∈ trs, T.eventIds.Nodup) :
    (∀ t, (noteEventOccurrence reg trs ⟨[], [], ec, tc⟩).triggerCount t
      = tc t + (if t ∈ trs.map RTrigger.tid then 1 else 0)) ∧
    keysOf (noteEventOccurrence reg trs
        ⟨[], [], ec, tc⟩).triggeredEvents
      = freshKeys reg [] (claimStream trs) ∧
    (keysOf (noteEventOccurrence reg trs
        ⟨[], [], ec, tc⟩).triggeredEvents).Nodup ∧
    (∀ e, e ∈ keysOf (noteEventOccurrence reg trs
          ⟨[], [], ec, tc⟩).triggeredEvents
       ↔ hasEvB reg e = true ∧ ∃ T ∈ trs, e ∈ T.eventIds) ∧
    (∀ e, hasEvB reg e = true →
      causesOf (noteEventOccurrence reg trs
          ⟨[], [], ec, tc⟩).triggeredEvents e
        = (trs.filter (fun T => e ∈ T.eventIds)).map RTrigger.tid) ∧
    (∀ e, (noteEventOccurrence reg trs ⟨[], [], ec, tc⟩).eventCount e
      = ec e + (if hasEvB reg e ∧ ∃ T ∈ trs, e ∈ T.eventIds
                then 1 else 0)) ∧
    (noteEventOccurrence reg trs ⟨[], [], ec, tc⟩).ignoredEventIds.Nodup ∧
    (∀ e, e ∈ (noteEventOccurrence reg trs
          ⟨[], [], ec, tc⟩).ignoredEventIds
       ↔ ¬ hasEvB reg e = true ∧ ∃ T ∈ trs, e ∈ T.eventIds) := by
  rw [noteEventOccurrence_eq_procStream]
  refine ⟨?_, ?_, ?_, ?_, ?_, ?_, ?_, ?_⟩
  · intro t
    dsimp only
    rw [bumpAll_apply]
    by_cases hm : t ∈ trs.map RTrigger.tid
    · rw [if_pos hm, List.count_eq_one_of_mem hdist hm]
    · rw [if_neg hm, List.count_eq_zero.mpr hm]
  · dsimp only
    rw [procStream_keys]
    rfl
  · dsimp only
    rw [procStream_keys]
    exact freshKeys_nodup reg _ _
  · intro e
    dsimp only
    rw [procStream_keys]
    constructor
    · intro hmem
      obtain ⟨h1, _, h3⟩ := freshKeys_mem reg [] (claimStream trs) e
        (by simpa [keysOf] using hmem)
      exact ⟨h1, (claimStream_snd_mem trs e).mp h3⟩
    · rintro ⟨h1, h2⟩
      have := freshKeys_complete reg [] (claimStream trs) e h1
        ((claimStream_snd_mem trs e).mpr h2)
      simpa [keysOf] using this
  · intro e he
    dsimp only
    rw [procStream_causes reg _ _ e he, claimStream_filter trs e hnd]
    rfl
  · intro e
    dsimp only
    rw [procStream_evCount]
    have hkeq : (e ∈ keysOf (NoteState.mk [] [] ec tc).triggeredEvents)
        = False := by
      simp [keysOf]
    by_cases hc : hasEvB reg e = true ∧ ∃ T ∈ trs, e ∈ T.eventIds
    · rw [if_pos hc, if_pos ⟨hc.1, by simp [keysOf],
        (claimStream_snd_mem trs e).mpr hc.2⟩]
    · rw [if_neg hc, if_neg (fun hcc => hc
        ⟨hcc.1, (claimStream_snd_mem trs e).mp hcc.2.2⟩)]
  · dsimp only
    rw [procStream_ignored]
    simpa using freshIgnored_nodup reg [] (claimStream trs)
  · intro e
    dsimp only
    rw [procStream_ignored]
    constructor
    · intro hmem
      obtain ⟨h1, _, h3⟩ :=
        freshIgnored_mem reg [] _ e (by simpa using hmem)
      exact ⟨h1, (claimStream_snd_mem trs e).mp h3⟩
    · rintro ⟨h1, h2⟩
      have := freshIgnored_complete reg [] (claimStream trs) e h1
        ((claimStream_snd_mem trs e).mpr h2)
      simpa using this

/-- Witness for the amended C2, scenario S2: two distinct triggers (tids
1 and 2) both causing event 0 produce one entry whose causes are `[1, 2]`
in input order, with the event and both triggers counted once. -/
theorem C2_amended_witness :
    causesOf (noteEventOccurrence [true] [⟨1, [0]⟩, ⟨2, [0]⟩]
        ⟨[], [], fun _ => 0, fun _ => 0⟩).triggeredEvents 0 = [1, 2] ∧
    (noteEventOccurrence [true] [⟨1, [0]⟩, ⟨2, [0]⟩]
        ⟨[], [], fun _ => 0, fun _ => 0⟩).triggerCount 1 = 1 ∧
    (noteEventOccurrence [true] [⟨1, [0]⟩, ⟨2, [0]⟩]
        ⟨[], [], fun _ => 0, fun _ => 0⟩).eventCount 0 = 1 := by
  have h := C2_amended_resolver [true] [⟨1, [0]⟩, ⟨2, [0]⟩]
    (fun _ => 0) (fun _ => 0) (by decide) (by decide)
  exact ⟨(h.2.2.2.2.1 0 (by decide)).trans (by rfl),
    (h.1 1).trans (by decide),
    (h.2.2.2.2.2.1 0).trans (by decide)⟩

/-- Claim C10: `noteEventOccurrence` appends to its output arrays without
clearing them — pre-existing entries are preserved in place, participate
in the de-duplication searches (an event key or ignored id already
present gets no new entry and no counter re-bump), pre-existing cause
lists are extended in place, and new entries are appended after the old
ones. -/
theorem C10_append_mode_and_dedup (reg : OccReg) (trs : List RTrigger)
    (st : NoteState) :
    keysOf (noteEventOccurrence reg trs st).triggeredEvents
      = keysOf st.triggeredEvents
        ++ freshKeys reg (keysOf st.triggeredEvents) (claimStream trs) ∧
    (noteEventOccurrence reg trs st).ignoredEventIds
      = st.ignoredEventIds
        ++ freshIgnored reg st.ignoredEventIds (claimStream trs) ∧
    (∀ e, e ∈ keysOf st.triggeredEvents →
      e ∉ freshKeys reg (keysOf st.triggeredEvents) (claimStream trs)) ∧
    (∀ e, e ∈ st.ignoredEventIds →
      e ∉ freshIgnored reg st.ignoredEventIds (claimStream trs)) ∧
    (∀ e, hasEvB reg e = true →
      causesOf (noteEventOccurrence reg trs st).triggeredEvents e
        = causesOf st.triggeredEvents e
          ++ ((claimStream trs).filter (fun p => p.2 = e)).map
               Prod.fst) ∧
    (∀ e, e ∈ keysOf st.triggeredEvents →
      (noteEventOccurrence reg trs st).eventCount e = st.eventCount e) := by
  rw [noteEventOccurrence_eq_procStream]
  refine ⟨?_, ?_, ?_, ?_, ?_, ?_⟩
  · dsimp only
    exact procStream_keys reg (claimStream trs) st
  · dsimp only
    exact procStream_ignored reg (claimStream trs) st
  · intro e he hmem
    exact (freshKeys_mem reg _ _ e hmem).2.1 he
  · intro e he hmem
    exact (freshIgnored_mem reg _ _ e hmem).2.1 he
  · intro e he
    dsimp only
    exact procStream_causes reg (claimStream trs) st e he
  · intro e he
    dsimp only
    rw [procStream_evCount,
      if_neg (fun hc : hasEvB reg e = true
          ∧ e ∉ keysOf st.triggeredEvents
          ∧ e ∈ (claimStream trs).map Prod.snd => hc.2.1 he),
      Nat.add_zero]

/-- Witness for C10: with a pre-existing entry for event 5 and a
pre-existing ignored id 3, a call adding recognized event 0 appends its
key after 5 and keeps the arrays' old contents. -/
theorem C10_witness :
    keysOf (noteEventOccurrence [true] [⟨1, [0]⟩]
        ⟨[(5, [9])], [3], fun _ => 0, fun _ => 0⟩).triggeredEvents
      = [5, 0] :=
  (C10_append_mode_and_dedup [true] [⟨1, [0]⟩]
    ⟨[(5, [9])], [3], fun _ => 0, fun _ => 0⟩).1.trans (by rfl)
